import Mathlib

/-!
Verification of the InvoiceForge core (src/app/components/InvoiceForge.tsx):
the invoice data model, `normalizeInvoice`, the totals computation with
`round2`, the share-link codec (`base64UrlEncodeUtf8` / `base64UrlDecodeUtf8`
composed with `JSON.stringify` / `JSON.parse`), and the line-item operations
`updateItem` / `removeItem`.

Modelling conventions:
* JavaScript numbers are modelled as exact rationals (`ℚ`); decimal numerals
  denote their exact values and arithmetic is exact.
* JavaScript strings are modelled as Lean `String` (sequences of Unicode
  scalar values; lone surrogates are outside the model).
* Untyped JavaScript/JSON data is modelled by the inductive `Value` below
  (the values producible by `JSON.parse`).  A missing object field, or field
  access on a non-object, is JS `undefined`, modelled as `Option.none` in
  `getField`.  Accessing a field on `null` throws in JS; the call sites of
  `normalizeInvoice` guard against that (its TypeScript type excludes
  `null`/`undefined`), so theorems about it carry a `v ≠ Value.vNull`
  hypothesis where needed.
* The ambient effects (current date, `uid()` supply, the `uid()`s baked into
  the module-level `exampleInvoice`) are gathered in an explicit `Env`;
  `uid()` calls made while normalizing the items array are modelled as
  drawing `env.uidAt i` for the item at index `i`.
-/

/-- A JavaScript value as producible by `JSON.parse`: `null`, booleans,
numbers (modelled exactly as rationals), strings, arrays and objects
(ordered field lists). -/
inductive Value where
  | vNull : Value
  | bool : Bool → Value
  | num : ℚ → Value
  | str : String → Value
  | arr : List Value → Value
  | obj : List (String × Value) → Value
deriving Inhabited

/-- JS property read `o[k]`: on an object the last binding of the key wins
(as after `JSON.parse` of duplicate keys); on any non-object primitive or
array the named fields used here are absent.  `none` is JS `undefined`. -/
def getField (v : Value) (k : String) : Option Value :=
  match v with
  | Value.obj kvs => kvs.foldl (fun acc kv => if kv.1 = k then some kv.2 else acc) none
  | _ => none

/-- JS nullish coalescing `o.k ?? d`. -/
def nullishGet (v : Value) (k : String) (d : Value) : Value :=
  match getField v k with
  | none => d
  | some Value.vNull => d
  | some w => w

/-- `typeof x === 'string'` after a field read (`undefined` is not a string). -/
def strictString (o : Option Value) (d : String) : Value :=
  match o with
  | some (Value.str s) => Value.str s
  | _ => Value.str d

/-- `typeof x === 'number'` after a field read (`undefined` is not a number). -/
def strictNum (o : Option Value) (d : ℚ) : Value :=
  match o with
  | some (Value.num q) => Value.num q
  | _ => Value.num d

/-- JS falsiness of a parsed JSON value (`!parsed`): `null`, `false`, `0`
and `""` are falsy; arrays and objects are always truthy. -/
def isFalsy (v : Value) : Bool :=
  match v with
  | Value.vNull => true
  | Value.bool b => !b
  | Value.num q => q == 0
  | Value.str s => s == ""
  | _ => false

/-- Ambient process state of the component module: `todayISO()`,
`plusDaysISO(14)`, the `uid()` supply used during one `normalizeInvoice`
call (indexed by item position), and the two `uid()`s drawn when the
module-level `exampleInvoice` literal was built. -/
structure Env where
  today : String
  plus14 : String
  uidAt : ℕ → String
  exId1 : String
  exId2 : String

/-- `List.map` with the element index, used to model the `uid()` draws made
while mapping over an items array. -/
def mapWithIndex (f : ℕ → α → β) : ℕ → List α → List β
  | _, [] => []
  | i, a :: t => f i a :: mapWithIndex f (i + 1) t

/-- One item of the mapped branch of `normalizeInvoice`
(`InvoiceForge.tsx:121-126`): `id` kept when it is a string else a fresh
`uid()`, `description` a string else `""`, `quantity` a number else `1`,
`unitPrice` a number else `0`.  Optional chaining `it?.id` never throws, so
arbitrary entries (including `null`) are coerced. -/
def coerceItem (env : Env) (i : ℕ) (e : Value) : Value :=
  Value.obj
    [ ("id", strictString (getField e "id") (env.uidAt i))
    , ("description", strictString (getField e "description") "")
    , ("quantity", strictNum (getField e "quantity") 1)
    , ("unitPrice", strictNum (getField e "unitPrice") 0) ]

/-- The single default line item of the non-array branch of
`normalizeInvoice` (`InvoiceForge.tsx:127`). -/
def defaultItem (env : Env) : Value :=
  Value.obj
    [ ("id", Value.str (env.uidAt 0))
    , ("description", Value.str "Service")
    , ("quantity", Value.num 1)
    , ("unitPrice", Value.num 0) ]

/-- `normalizeInvoice` (`InvoiceForge.tsx:108-129`).  String-ish fields use
`?? `-defaulting (so a present non-string, non-null value passes through);
`taxRatePct` and the per-item numeric fields use `typeof` checks; `items`
maps any array entry-wise and otherwise produces the single default item. -/
def normalizeValue (env : Env) (v : Value) : Value :=
  Value.obj
    [ ("fromName", nullishGet v "fromName" (Value.str ""))
    , ("fromAddress", nullishGet v "fromAddress" (Value.str ""))
    , ("billToName", nullishGet v "billToName" (Value.str ""))
    , ("billToAddress", nullishGet v "billToAddress" (Value.str ""))
    , ("invoiceNumber", nullishGet v "invoiceNumber" (Value.str ""))
    , ("issueDate", nullishGet v "issueDate" (Value.str env.today))
    , ("dueDate", nullishGet v "dueDate" (Value.str env.plus14))
    , ("currency", nullishGet v "currency" (Value.str "USD"))
    , ("taxRatePct", strictNum (getField v "taxRatePct") 0)
    , ("notes", nullishGet v "notes" (Value.str ""))
    , ("items",
        match getField v "items" with
        | some (Value.arr l) => Value.arr (mapWithIndex (coerceItem env) 0 l)
        | _ => Value.arr [defaultItem env]) ]

/-- The `LineItem` type (`InvoiceForge.tsx:5-10`). -/
structure LineItem where
  id : String
  description : String
  quantity : ℚ
  unitPrice : ℚ
deriving DecidableEq

/-- The `Invoice` type (`InvoiceForge.tsx:12-24`). -/
structure Invoice where
  fromName : String
  fromAddress : String
  billToName : String
  billToAddress : String
  invoiceNumber : String
  issueDate : String
  dueDate : String
  currency : String
  taxRatePct : ℚ
  notes : String
  items : List LineItem
deriving DecidableEq

/-- A typed `LineItem` as the JS object value it is at runtime. -/
def itemToValue (it : LineItem) : Value :=
  Value.obj
    [ ("id", Value.str it.id)
    , ("description", Value.str it.description)
    , ("quantity", Value.num it.quantity)
    , ("unitPrice", Value.num it.unitPrice) ]

/-- A typed `Invoice` as the JS object value it is at runtime (field order
is the declaration order, which all construction sites of the source use). -/
def invToValue (I : Invoice) : Value :=
  Value.obj
    [ ("fromName", Value.str I.fromName)
    , ("fromAddress", Value.str I.fromAddress)
    , ("billToName", Value.str I.billToName)
    , ("billToAddress", Value.str I.billToAddress)
    , ("invoiceNumber", Value.str I.invoiceNumber)
    , ("issueDate", Value.str I.issueDate)
    , ("dueDate", Value.str I.dueDate)
    , ("currency", Value.str I.currency)
    , ("taxRatePct", Value.num I.taxRatePct)
    , ("notes", Value.str I.notes)
    , ("items", Value.arr (I.items.map itemToValue)) ]

/-- The module-level `exampleInvoice` literal (`InvoiceForge.tsx:91-106`);
its two `uid()` draws and the two date calls come from the environment. -/
def exampleInvoice (env : Env) : Invoice where
  fromName := "Acme Studio LLC"
  fromAddress := "1-2-3 Shibuya\nTokyo, Japan"
  billToName := "Client Co."
  billToAddress := "500 Market St\nSan Francisco, CA"
  invoiceNumber := "INV-1007"
  issueDate := env.today
  dueDate := env.plus14
  currency := "USD"
  taxRatePct := 10
  notes := "Thank you for your business. Please include the invoice number on your payment reference."
  items :=
    [ ⟨env.exId1, "Landing page design (Figma)", 1, 900⟩
    , ⟨env.exId2, "Implementation (Next.js)", 10, 90⟩ ]

/-- `Number.EPSILON` (2⁻⁵²), as the exact rational it denotes. -/
def numberEpsilon : ℚ := 1 / 2 ^ 52

/-- JS `Math.round`: nearest integer, halves rounding toward `+∞`
(`⌊x + 1/2⌋`; the ECMAScript operation is exact on its double argument). -/
def jsMathRound (x : ℚ) : ℤ := ⌊x + 1 / 2⌋

/-- Round to the nearest integer, ties to even (the IEEE-754 default
direction applied by every binary64 arithmetic operation). -/
def roundEven (x : ℚ) : ℤ :=
  let f := ⌊x⌋
  let r := x - f
  if r < 1 / 2 then f
  else if 1 / 2 < r then f + 1
  else if 2 ∣ f then f else f + 1

/-- Binary64 rounding of an exact rational: round to nearest (ties to
even) with a 53-bit significand.  The exponent is unbounded: every value
arising here is far inside the normal double range, so overflow and
subnormals play no role. -/
def fl (q : ℚ) : ℚ :=
  if q = 0 then 0
  else (roundEven (q * 2 ^ (52 - Int.log 2 |q|)) : ℚ) * 2 ^ (Int.log 2 |q| - 52)

/-- `round2` (`InvoiceForge.tsx:32-34`):
`Math.round((n + Number.EPSILON) * 100) / 100`, evaluated in binary64: the
addition, the multiplication and the final division each round to nearest
even (`fl`), while `Math.round` is exact on its double argument. -/
def round2 (n : ℚ) : ℚ :=
  fl ((jsMathRound (fl (fl (n + numberEpsilon) * 100)) : ℚ) / 100)

/-- The derived totals record (`InvoiceForge.tsx:152-159`). -/
structure Totals where
  subtotal : ℚ
  tax : ℚ
  total : ℚ
deriving DecidableEq

/-- The `totals` memo (`InvoiceForge.tsx:152-159`).  On a well-typed
invoice `Number(x) || 0` is the identity on the exact-rational model (the
coercion only rewrites `NaN`, which has no counterpart here). -/
def totals (inv : Invoice) : Totals :=
  let subtotal := round2 (inv.items.foldl (fun acc it => acc + it.quantity * it.unitPrice) 0)
  let tax := round2 (subtotal * inv.taxRatePct / 100)
  let total := round2 (subtotal + tax)
  ⟨subtotal, tax, total⟩

/-- A `Partial<LineItem>` patch: each field optionally present. -/
structure LineItemPatch where
  id : Option String := none
  description : Option String := none
  quantity : Option ℚ := none
  unitPrice : Option ℚ := none

/-- JS object spread `{ ...it, ...patch }`: fields present in the patch
replace those of the item. -/
def applyPatch (it : LineItem) (p : LineItemPatch) : LineItem :=
  ⟨p.id.getD it.id, p.description.getD it.description,
   p.quantity.getD it.quantity, p.unitPrice.getD it.unitPrice⟩

/-- `updateItem` (`InvoiceForge.tsx:165-170`), as the pure state transition
applied by `setInvoice`. -/
def updateItem (id : String) (p : LineItemPatch) (prev : Invoice) : Invoice :=
  { prev with items := prev.items.map fun it => if it.id == id then applyPatch it p else it }

/-- `removeItem` (`InvoiceForge.tsx:179-184`), as the pure state transition
applied by `setInvoice`. -/
def removeItem (id : String) (prev : Invoice) : Invoice :=
  { prev with items := if prev.items.length ≤ 1 then prev.items
                       else prev.items.filter fun it => it.id != id }

/-! ## UTF-8 (`TextEncoder` / `TextDecoder`) -/

/-- UTF-8 encoding of one Unicode scalar value. -/
def utf8EncodeChar (c : ℕ) : List ℕ :=
  if c < 0x80 then [c]
  else if c < 0x800 then [0xC0 + c / 64, 0x80 + c % 64]
  else if c < 0x10000 then [0xE0 + c / 4096, 0x80 + c / 64 % 64, 0x80 + c % 64]
  else [0xF0 + c / 262144, 0x80 + c / 4096 % 64, 0x80 + c / 64 % 64, 0x80 + c % 64]

/-- `new TextEncoder().encode(input)`: UTF-8 bytes of the scalar values. -/
def utf8EncodeList : List Char → List ℕ
  | [] => []
  | c :: t => utf8EncodeChar c.toNat ++ utf8EncodeList t

/-- The replacement character U+FFFD emitted by a non-fatal `TextDecoder`. -/
def replChar : Char := Char.ofNat 0xFFFD

/-- A UTF-8 continuation byte. -/
def isContByte (b : ℕ) : Bool := 0x80 ≤ b && b < 0xC0

/-- Allowed second byte after a three-byte lead (excludes overlong forms and
surrogates). -/
def okByte1of3 (b b1 : ℕ) : Bool :=
  if b = 0xE0 then 0xA0 ≤ b1 && b1 < 0xC0
  else if b = 0xED then 0x80 ≤ b1 && b1 < 0xA0
  else isContByte b1

/-- Allowed second byte after a four-byte lead (excludes overlong forms and
values above U+10FFFF). -/
def okByte1of4 (b b1 : ℕ) : Bool :=
  if b = 0xF0 then 0x90 ≤ b1 && b1 < 0xC0
  else if b = 0xF4 then 0x80 ≤ b1 && b1 < 0x90
  else isContByte b1

/-- One step of the UTF-8 decoder: given a lead byte and the following
bytes, the decoded character (U+FFFD on an invalid sequence) and how many
of the following bytes the sequence consumed. -/
def utf8DecodeStep (b : ℕ) (rest : List ℕ) : Char × ℕ :=
  if b < 0x80 then (Char.ofNat b, 0)
  else if 0xC2 ≤ b && b < 0xE0 then
    match rest with
    | b1 :: _ =>
      if isContByte b1 then (Char.ofNat ((b - 0xC0) * 64 + (b1 - 0x80)), 1)
      else (replChar, 0)
    | [] => (replChar, 0)
  else if 0xE0 ≤ b && b < 0xF0 then
    match rest with
    | b1 :: b2 :: _ =>
      if okByte1of3 b b1 && isContByte b2 then
        (Char.ofNat ((b - 0xE0) * 4096 + (b1 - 0x80) * 64 + (b2 - 0x80)), 2)
      else (replChar, 0)
    | _ => (replChar, 0)
  else if 0xF0 ≤ b && b < 0xF5 then
    match rest with
    | b1 :: b2 :: b3 :: _ =>
      if okByte1of4 b b1 && isContByte b2 && isContByte b3 then
        (Char.ofNat ((b - 0xF0) * 262144 + (b1 - 0x80) * 4096 + (b2 - 0x80) * 64 + (b3 - 0x80)), 3)
      else (replChar, 0)
    | _ => (replChar, 0)
  else (replChar, 0)

/-- `new TextDecoder().decode(bytes)`: the default decoder never throws; an
invalid sequence yields U+FFFD.  (The model resynchronises at the byte
after the offending lead byte rather than after the longest valid prefix,
which only affects how many U+FFFD a malformed input produces.) -/
def utf8DecodeList : List ℕ → List Char
  | [] => []
  | b :: rest =>
    (utf8DecodeStep b rest).1 :: utf8DecodeList (rest.drop (utf8DecodeStep b rest).2)
termination_by l => l.length
decreasing_by simp [List.length_drop]; omega

/-! ## Base64 (`btoa` / `atob`) -/

/-- The standard base64 alphabet. -/
def b64Alphabet : List Char :=
  "ABCDEFGHIJKLMNOPQRSTUVWXYZabcdefghijklmnopqrstuvwxyz0123456789+/".data

/-- The base64 digit for a 6-bit value. -/
def b64Char (v : ℕ) : Char := b64Alphabet.getD v 'A'

/-- The 6-bit value of a base64 digit; `none` for a character outside the
alphabet. -/
def b64Val (c : Char) : Option ℕ := b64Alphabet.findIdx? (fun a => a == c)

/-- The unpadded base64 digits of a byte sequence (three bytes to four
digits, with a two- or three-digit final group). -/
def b64EncodeChunks : List ℕ → List Char
  | [] => []
  | [b0] => [b64Char (b0 / 4), b64Char (b0 % 4 * 16)]
  | [b0, b1] => [b64Char (b0 / 4), b64Char (b0 % 4 * 16 + b1 / 16), b64Char (b1 % 16 * 4)]
  | b0 :: b1 :: b2 :: rest =>
    b64Char (b0 / 4) :: b64Char (b0 % 4 * 16 + b1 / 16) ::
      b64Char (b1 % 16 * 4 + b2 / 64) :: b64Char (b2 % 64) :: b64EncodeChunks rest

/-- `btoa(binary)`: base64 digits plus `=` padding to a multiple of four.
The binary string the source builds from the UTF-8 bytes is the byte list
itself (all its char codes are below 256 by construction). -/
def btoaChars (bytes : List ℕ) : List Char :=
  let cs := b64EncodeChunks bytes
  cs ++ List.replicate ((4 - cs.length % 4) % 4) '='

/-- Bytes of a sequence of 6-bit values (four digits to three bytes, a
final group of two or three digits to one or two bytes, leftover bits
discarded as in forgiving-base64). -/
def b64DecodeChunks : List ℕ → List ℕ
  | v0 :: v1 :: v2 :: v3 :: rest =>
    (v0 * 4 + v1 / 16) :: (v1 % 16 * 16 + v2 / 4) :: (v2 % 4 * 64 + v3) :: b64DecodeChunks rest
  | [v0, v1] => [v0 * 4 + v1 / 16]
  | [v0, v1, v2] => [v0 * 4 + v1 / 16, v1 % 16 * 16 + v2 / 4]
  | _ => []

/-- The 6-bit values of a character sequence; `none` if any character is
outside the base64 alphabet. -/
def b64ValsOf : List Char → Option (List ℕ)
  | [] => some []
  | c :: t =>
    match b64Val c, b64ValsOf t with
    | some v, some vs => some (v :: vs)
    | _, _ => none

/-- ASCII whitespace tolerated by `atob`. -/
def isAsciiWs (c : Char) : Bool :=
  c.toNat = 0x09 || c.toNat = 0x0A || c.toNat = 0x0C || c.toNat = 0x0D || c.toNat = 0x20

/-- `atob(padded)` (WHATWG forgiving-base64): strip ASCII whitespace, strip
up to two trailing `=` when the length is a multiple of four, reject a
remaining length of 1 mod 4 and any character outside the alphabet
(including a leftover `=`), then convert digit groups to bytes. -/
def atobChars (input : List Char) : Option (List ℕ) :=
  let s0 := input.filter (fun c => !isAsciiWs c)
  let s :=
    if s0.length % 4 = 0 then
      match s0.reverse with
      | '=' :: '=' :: r => r.reverse
      | '=' :: r => r.reverse
      | _ => s0
    else s0
  if s.length % 4 = 1 then none
  else
    match b64ValsOf s with
    | none => none
    | some vals => some (b64DecodeChunks vals)

/-! ## The URL-safe codec (`base64UrlEncodeUtf8` / `base64UrlDecodeUtf8`) -/

/-- `replaceAll('+','-').replaceAll('/','_')` character-wise. -/
def urlSubChar (c : Char) : Char :=
  if c = '+' then '-' else if c = '/' then '_' else c

/-- `replaceAll('-','+').replaceAll('_','/')` character-wise. -/
def urlUnsubChar (c : Char) : Char :=
  if c = '-' then '+' else if c = '_' then '/' else c

/-- `base64UrlEncodeUtf8` (`InvoiceForge.tsx:58-64`): UTF-8 encode, `btoa`,
substitute `+`→`-` and `/`→`_`, drop `=`. -/
def base64UrlEncodeUtf8 (input : String) : String :=
  String.mk (((btoaChars (utf8EncodeList input.data)).map urlSubChar).filter (fun c => c != '='))

/-- `base64UrlDecodeUtf8` (`InvoiceForge.tsx:66-72`): substitute back, pad
with `'==='.slice((input.length + 3) % 4)`, `atob`, UTF-8 decode.  `none`
models the `atob` exception on malformed input. -/
def base64UrlDecodeUtf8 (input : String) : Option String :=
  let padded := input.data.map urlUnsubChar ++
    List.replicate (3 - (input.length + 3) % 4) '='
  match atobChars padded with
  | none => none
  | some bytes => some (String.mk (utf8DecodeList bytes))

/-! ## JSON serialization (`JSON.stringify`) -/

/-- The decimal digit character for `d < 10`. -/
def digitChar (d : ℕ) : Char := Char.ofNat (48 + d)

/-- Decimal digits of a natural number, least significant first. -/
def natDigitsRev (n : ℕ) : List Char :=
  if h : n < 10 then [digitChar n]
  else digitChar (n % 10) :: natDigitsRev (n / 10)
termination_by n
decreasing_by omega

/-- Decimal digits of a natural number, most significant first (`"0"` for 0,
no leading zeros otherwise). -/
def natToDigits (n : ℕ) : List Char := (natDigitsRev n).reverse

/-- The smallest exponent `e ≤ 6` with `q·10^e` integral (6 when none is). -/
def findDecExp (q : ℚ) : ℕ :=
  ((List.range 7).find? fun e => (q * 10 ^ e).den == 1).getD 6

/-- Fraction digits of `frac < 10^e`, zero-padded on the left to width `e`. -/
def fracDigits (frac e : ℕ) : List Char :=
  let ds := natToDigits frac
  List.replicate (e - ds.length) '0' ++ ds

/-- Fixed-notation decimal form of a non-negative rational whose denominator
divides 10⁶ (the shortest round-trip form JS number-to-string produces for
the exactly-decimal values covered by `NumOk`). -/
def printNumNonneg (q : ℚ) : List Char :=
  let e := findDecExp q
  let m := (q * 10 ^ e).num.toNat
  if e = 0 then natToDigits m
  else natToDigits (m / 10 ^ e) ++ '.' :: fracDigits (m % 10 ^ e) e

/-- JSON text of a number. -/
def printNum (q : ℚ) : List Char :=
  if q < 0 then '-' :: printNumNonneg (-q) else printNumNonneg q

/-- Lowercase hexadecimal digit for `d < 16`. -/
def hexDigitChar (d : ℕ) : Char :=
  if d < 10 then Char.ofNat (48 + d) else Char.ofNat (87 + d)

/-- `JSON.stringify` escaping of one character: `"` and `\` get a backslash,
the five named control escapes are used, other control characters become
`\u00XX`, everything else is literal. -/
def escapeChar (c : Char) : List Char :=
  let n := c.toNat
  if n = 34 then ['\\', '"']
  else if n = 92 then ['\\', '\\']
  else if n = 8 then ['\\', 'b']
  else if n = 9 then ['\\', 't']
  else if n = 10 then ['\\', 'n']
  else if n = 12 then ['\\', 'f']
  else if n = 13 then ['\\', 'r']
  else if n < 32 then ['\\', 'u', '0', '0', hexDigitChar (n / 16), hexDigitChar (n % 16)]
  else [c]

/-- `JSON.stringify` escaping of a character sequence. -/
def escapeList : List Char → List Char
  | [] => []
  | c :: t => escapeChar c ++ escapeList t

/-- JSON text of a string, quotes included. -/
def printString (s : String) : List Char := '"' :: (escapeList s.data ++ ['"'])

/-- The `{` character. -/
def lbraceChar : Char := Char.ofNat 123

/-- The `}` character. -/
def rbraceChar : Char := Char.ofNat 125

mutual

/-- `JSON.stringify` of a value (as emitted with no spacing argument). -/
def printValue : Value → List Char
  | Value.vNull => "null".data
  | Value.bool true => "true".data
  | Value.bool false => "false".data
  | Value.num q => printNum q
  | Value.str s => printString s
  | Value.arr l => '[' :: (printElems l ++ [']'])
  | Value.obj kvs => lbraceChar :: (printMembers kvs ++ [rbraceChar])

/-- Comma-separated element texts of an array body. -/
def printElems : List Value → List Char
  | [] => []
  | v :: t => printValue v ++ printElemsTail t

/-- `,`-prefixed texts of the remaining array elements. -/
def printElemsTail : List Value → List Char
  | [] => []
  | v :: t => ',' :: (printValue v ++ printElemsTail t)

/-- Comma-separated member texts of an object body. -/
def printMembers : List (String × Value) → List Char
  | [] => []
  | (k, v) :: t => printString k ++ ':' :: printValue v ++ printMembersTail t

/-- `,`-prefixed texts of the remaining object members. -/
def printMembersTail : List (String × Value) → List Char
  | [] => []
  | (k, v) :: t => ',' :: (printString k ++ ':' :: printValue v ++ printMembersTail t)

end

/-- `JSON.stringify(v)` as a string. -/
def jsonStringify (v : Value) : String := String.mk (printValue v)

/-! ## JSON parsing (`JSON.parse`) -/

/-- JSON whitespace (space, tab, line feed, carriage return). -/
def isWsCh (c : Char) : Bool :=
  c.toNat = 32 || c.toNat = 9 || c.toNat = 10 || c.toNat = 13

/-- Drop leading JSON whitespace. -/
def skipWs : List Char → List Char
  | [] => []
  | c :: t => if isWsCh c then skipWs t else c :: t

/-- A decimal digit character. -/
def isDigitCh (c : Char) : Bool := 48 ≤ c.toNat && c.toNat ≤ 57

/-- Value of a decimal digit character. -/
def digitVal (c : Char) : ℕ := c.toNat - 48

/-- Value of a decimal digit sequence. -/
def digitsToNat (ds : List Char) : ℕ := ds.foldl (fun a c => a * 10 + digitVal c) 0

/-- Value of a hexadecimal digit character, either case. -/
def hexVal (c : Char) : Option ℕ :=
  let n := c.toNat
  if 48 ≤ n && n ≤ 57 then some (n - 48)
  else if 97 ≤ n && n ≤ 102 then some (n - 87)
  else if 65 ≤ n && n ≤ 70 then some (n - 55)
  else none

/-- One step of the JSON string-body scanner: given the next character and
the remaining characters, `none` on a syntax error, `some (none, k)` when
the character closes the string, and `some (some ch, k)` when it (with `k`
following characters) decodes to `ch`.  Escapes follow RFC 8259; a
`\uXXXX` surrogate pair yields the astral character, and a lone surrogate
(representable in JS, not in a scalar-value string) maps to U+FFFD.  Raw
control characters are rejected as `JSON.parse` does. -/
def parseStringStep (c : Char) (t : List Char) : Option (Option Char × ℕ) :=
  if c = '"' then some (none, 0)
  else if c = '\\' then
    match t with
    | [] => none
    | e :: _ =>
      if e = '"' ∨ e = '\\' ∨ e = '/' then some (some e, 1)
      else if e = 'b' then some (some (Char.ofNat 8), 1)
      else if e = 'f' then some (some (Char.ofNat 12), 1)
      else if e = 'n' then some (some (Char.ofNat 10), 1)
      else if e = 'r' then some (some (Char.ofNat 13), 1)
      else if e = 't' then some (some (Char.ofNat 9), 1)
      else if e = 'u' then
        match t with
        | _ :: h1 :: h2 :: h3 :: h4 :: t3 =>
          match hexVal h1, hexVal h2, hexVal h3, hexVal h4 with
          | some a, some b, some c1, some d =>
            let n := a * 4096 + b * 256 + c1 * 16 + d
            if 0xD800 ≤ n ∧ n < 0xDC00 then
              match t3 with
              | e2 :: u2 :: g1 :: g2 :: g3 :: g4 :: _ =>
                if e2 = '\\' ∧ u2 = 'u' then
                  match hexVal g1, hexVal g2, hexVal g3, hexVal g4 with
                  | some a2, some b2, some c2, some d2 =>
                    let m := a2 * 4096 + b2 * 256 + c2 * 16 + d2
                    if 0xDC00 ≤ m ∧ m < 0xE000 then
                      some (some (Char.ofNat (0x10000 + (n - 0xD800) * 1024 + (m - 0xDC00))), 11)
                    else some (some replChar, 5)
                  | _, _, _, _ => some (some replChar, 5)
                else some (some replChar, 5)
              | _ => some (some replChar, 5)
            else if 0xDC00 ≤ n ∧ n < 0xE000 then some (some replChar, 5)
            else some (some (Char.ofNat n), 5)
          | _, _, _, _ => none
        | _ => none
      else none
  else if c.toNat < 32 then none
  else some (some c, 0)

/-- Parse a JSON string body after the opening quote, returning the decoded
characters and the input after the closing quote. -/
def parseStringBody : List Char → Option (List Char × List Char)
  | [] => none
  | c :: t =>
    match parseStringStep c t with
    | none => none
    | some (none, k) => some ([], t.drop k)
    | some (some ch, k) =>
      match parseStringBody (t.drop k) with
      | some (cs, r2) => some (ch :: cs, r2)
      | none => none
termination_by l => l.length
decreasing_by simp [List.length_drop]; omega

/-- Fraction part after a `.`: one or more digits, as the rational they
denote. -/
def parseFrac (s : List Char) : Option (ℚ × List Char) :=
  let fs := s.takeWhile isDigitCh
  if fs.isEmpty then none
  else some ((digitsToNat fs : ℚ) / 10 ^ fs.length, s.dropWhile isDigitCh)

/-- Exponent part after an `e`/`E`: optional sign and one or more digits. -/
def parseExpPart (s : List Char) : Option (ℤ × List Char) :=
  let sg : ℤ × List Char :=
    match s with
    | '+' :: r => (1, r)
    | '-' :: r => (-1, r)
    | _ => (1, s)
  match sg.2 with
  | c :: _ =>
    if isDigitCh c then
      some (sg.1 * (digitsToNat (sg.2.takeWhile isDigitCh) : ℤ), sg.2.dropWhile isDigitCh)
    else none
  | [] => none

/-- Apply an optional exponent suffix to an already-parsed mantissa. -/
def parseMaybeExp (q : ℚ) (s : List Char) : Option (ℚ × List Char) :=
  match s with
  | c :: rr =>
    if c = 'e' ∨ c = 'E' then
      match parseExpPart rr with
      | some (ex, r2) => some (q * (10 : ℚ) ^ ex, r2)
      | none => none
    else some (q, s)
  | [] => some (q, [])

/-- Parse an unsigned JSON number (integer part without redundant leading
zero, optional fraction, optional exponent). -/
def parseUnsignedNumber (s : List Char) : Option (ℚ × List Char) :=
  match s with
  | [] => none
  | c :: _ =>
    if isDigitCh c then
      let ds := s.takeWhile isDigitCh
      let r1 := s.dropWhile isDigitCh
      if 1 < ds.length ∧ ds.head? = some '0' then none
      else
        match r1 with
        | '.' :: rr =>
          match parseFrac rr with
          | some (f, r2) => parseMaybeExp ((digitsToNat ds : ℚ) + f) r2
          | none => none
        | _ => parseMaybeExp (digitsToNat ds : ℚ) r1
    else none

/-- Parse a JSON number, sign included. -/
def parseNumber (s : List Char) : Option (ℚ × List Char) :=
  match s with
  | '-' :: r =>
    match parseUnsignedNumber r with
    | some (q, rest) => some (-q, rest)
    | none => none
  | _ => parseUnsignedNumber s

mutual

/-- Fuel-indexed recursive-descent parser for one JSON value; returns the
value and the unconsumed input.  The fuel bounds the combined nesting and
element count; `jsonParse` supplies more fuel than any input can need. -/
def parseValue : ℕ → List Char → Option (Value × List Char)
  | 0, _ => none
  | fuel + 1, s =>
    match skipWs s with
    | [] => none
    | c :: r =>
      if c = 'n' then
        match r with
        | 'u' :: 'l' :: 'l' :: rr => some (Value.vNull, rr)
        | _ => none
      else if c = 't' then
        match r with
        | 'r' :: 'u' :: 'e' :: rr => some (Value.bool true, rr)
        | _ => none
      else if c = 'f' then
        match r with
        | 'a' :: 'l' :: 's' :: 'e' :: rr => some (Value.bool false, rr)
        | _ => none
      else if c = '"' then
        match parseStringBody r with
        | some (cs, rr) => some (Value.str (String.mk cs), rr)
        | none => none
      else if c = '[' then
        match skipWs r with
        | ']' :: rr => some (Value.arr [], rr)
        | r2 =>
          match parseElemsF fuel r2 with
          | some (l, rr) => some (Value.arr l, rr)
          | none => none
      else if c = lbraceChar then
        match skipWs r with
        | c2 :: rr =>
          if c2 = rbraceChar then some (Value.obj [], rr)
          else
            match parseMembersF fuel (c2 :: rr) with
            | some (kvs, r3) => some (Value.obj kvs, r3)
            | none => none
        | [] => none
      else if c = '-' ∨ isDigitCh c then
        match parseNumber (c :: r) with
        | some (q, rr) => some (Value.num q, rr)
        | none => none
      else none

/-- Parse one or more comma-separated array elements and the closing `]`. -/
def parseElemsF : ℕ → List Char → Option (List Value × List Char)
  | 0, _ => none
  | fuel + 1, s =>
    match parseValue fuel s with
    | none => none
    | some (v, r) =>
      match skipWs r with
      | ',' :: r2 =>
        match parseElemsF fuel r2 with
        | some (l, rr) => some (v :: l, rr)
        | none => none
      | ']' :: r2 => some ([v], r2)
      | _ => none

/-- Parse one or more comma-separated object members and the closing brace. -/
def parseMembersF : ℕ → List Char → Option (List (String × Value) × List Char)
  | 0, _ => none
  | fuel + 1, s =>
    match skipWs s with
    | '"' :: r =>
      match parseStringBody r with
      | none => none
      | some (kcs, r1) =>
        match skipWs r1 with
        | ':' :: r2 =>
          match parseValue fuel r2 with
          | none => none
          | some (v, r3) =>
            match skipWs r3 with
            | c :: r4 =>
              if c = ',' then
                match parseMembersF fuel r4 with
                | some (kvs, rr) => some ((String.mk kcs, v) :: kvs, rr)
                | none => none
              else if c = rbraceChar then some ([(String.mk kcs, v)], r4)
              else none
            | [] => none
        | _ => none
    | _ => none

end

/-- `JSON.parse(s)` (modulo exact number representation): parse one value,
then require only whitespace to remain.  `none` models the thrown
`SyntaxError`. -/
def jsonParse (s : String) : Option Value :=
  match parseValue (s.length + 1) s.data with
  | some (v, rest) => if skipWs rest = [] then some v else none
  | none => none

/-! ## The share-link pipeline (`copyShareLink` / `parseInvoiceFromUrl`) -/

/-- The token `copyShareLink` puts in the `data` query parameter
(`InvoiceForge.tsx:211-213`): `base64UrlEncodeUtf8(JSON.stringify(invoice))`. -/
def encodeShareToken (I : Invoice) : String :=
  base64UrlEncodeUtf8 (jsonStringify (invToValue I))

/-- The decode stages applied to a present token: `base64UrlDecodeUtf8`
then `safeJsonParse` (`InvoiceForge.tsx:137-138`). -/
def decodeShareToken (tok : String) : Option Value :=
  match base64UrlDecodeUtf8 tok with
  | none => none
  | some json => jsonParse json

/-- `parseInvoiceFromUrl` (`InvoiceForge.tsx:131-144`), over the value of
the `data` query parameter (`none` when absent; `URLSearchParams.get`
returns `null` then, and a present empty value is falsy like an absent
one).  Every failure path returns the freshly normalized example invoice
with an empty status; only a successful decode of a truthy JSON value
reports `'Loaded invoice from share link.'`. -/
def parseInvoiceFromUrl (env : Env) (dataParam : Option String) : Value × String :=
  let fallback := normalizeValue env (invToValue (exampleInvoice env))
  match dataParam with
  | none => (fallback, "")
  | some data =>
    if data = "" then (fallback, "")
    else
      match base64UrlDecodeUtf8 data with
      | none => (fallback, "")
      | some json =>
        match jsonParse json with
        | none => (fallback, "")
        | some parsed =>
          if isFalsy parsed then (fallback, "")
          else (normalizeValue env parsed, "Loaded invoice from share link.")

/-- The `id` fields of the `items` entries of an invoice-shaped value. -/
def getItemIds (v : Value) : List Value :=
  match getField v "items" with
  | some (Value.arr l) => l.map fun e => (getField e "id").getD Value.vNull
  | _ => []

/-! ## Predicates used in the theorem statements -/

/-- `v` is a JS string. -/
def isStringV (v : Value) : Bool :=
  match v with
  | Value.str _ => true
  | _ => false

/-- `v` is a JS number. -/
def isNumberV (v : Value) : Bool :=
  match v with
  | Value.num _ => true
  | _ => false

/-- Numbers covered by the exact-decimal model of JS number round-tripping:
denominator dividing 10⁶ and magnitude below 10²¹ (within this range JS
prints fixed-notation decimals, outside it exponent notation or more than
six fraction digits would be involved). -/
def NumOk (q : ℚ) : Prop :=
  (∃ m : ℤ, ∃ e : ℕ, e ≤ 6 ∧ q = (m : ℚ) / 10 ^ e) ∧ |q| < 10 ^ 21

/-- Values whose `JSON.stringify` text the model prints exactly: numbers
must be `NumOk`; strings, arrays and objects are unrestricted. -/
inductive Printable : Value → Prop where
  | pnull : Printable Value.vNull
  | pbool : ∀ b, Printable (Value.bool b)
  | pnum : ∀ q, NumOk q → Printable (Value.num q)
  | pstr : ∀ s, Printable (Value.str s)
  | parr : ∀ l, (∀ v, v ∈ l → Printable v) → Printable (Value.arr l)
  | pobj : ∀ kvs, (∀ kv, kv ∈ kvs → Printable kv.2) → Printable (Value.obj kvs)

/-- Input that may legally follow a printed value inside a JSON document
(so that in particular a number cannot absorb following characters). -/
def DelimOk (rest : List Char) : Prop :=
  match rest with
  | [] => True
  | c :: _ => c = ',' ∨ c = ']' ∨ c = rbraceChar

mutual

/-- Fuel needed by `parseValue` for a value (primitives cost 1, each
nesting level and each element another unit). -/
def vsize : Value → ℕ
  | Value.arr l => 1 + lsizeV l
  | Value.obj kvs => 1 + msizeV kvs
  | _ => 1

/-- Fuel needed for the elements of an array body. -/
def lsizeV : List Value → ℕ
  | [] => 0
  | v :: t => 1 + vsize v + lsizeV t

/-- Fuel needed for the members of an object body. -/
def msizeV : List (String × Value) → ℕ
  | [] => 0
  | (_, v) :: t => 1 + vsize v + msizeV t

end

/-- A fully-typed invoice as quantified over by the round-trip law: items
non-empty, and every numeric field within the exact-decimal model. -/
def ValidInvoice (I : Invoice) : Prop :=
  I.items ≠ [] ∧ NumOk I.taxRatePct ∧ ∀ it ∈ I.items, NumOk it.quantity ∧ NumOk it.unitPrice

/-- `r` is `x` rounded to the nearest multiple of 0.01 with ties away from
zero: `r` is a multiple of 0.01, within half a cent of `x`, at least as
close to `x` as any other multiple, and a tie is resolved to the side with
the larger magnitude. -/
def IsRound2AwayOf (x r : ℚ) : Prop :=
  (∃ k : ℤ, r = (k : ℚ) / 100) ∧
  |x - r| ≤ 1 / 200 ∧
  (∀ k : ℤ, |x - r| ≤ |x - (k : ℚ) / 100|) ∧
  (|x - r| = 1 / 200 → |r| = |x| + 1 / 200)

/-- An item value in the shape `normalizeInvoice` produces: a four-field
object with string `id`/`description` and numeric `quantity`/`unitPrice`. -/
def ItemForm (e : Value) : Prop :=
  ∃ i d q u, e = Value.obj
    [ ("id", Value.str i), ("description", Value.str d)
    , ("quantity", Value.num q), ("unitPrice", Value.num u) ]

/-- The shape of any `normalizeInvoice` output: the eleven fields in
declaration order, the `??`-defaulted ones non-null, `taxRatePct` a number,
and `items` an array of well-formed item objects. -/
def NormalizedForm (w : Value) : Prop :=
  ∃ (fn fa bn ba inv isd dd cur no : Value) (q : ℚ) (l : List Value),
    w = Value.obj
      [ ("fromName", fn), ("fromAddress", fa), ("billToName", bn)
      , ("billToAddress", ba), ("invoiceNumber", inv), ("issueDate", isd)
      , ("dueDate", dd), ("currency", cur), ("taxRatePct", Value.num q)
      , ("notes", no), ("items", Value.arr l) ] ∧
    fn ≠ Value.vNull ∧ fa ≠ Value.vNull ∧ bn ≠ Value.vNull ∧ ba ≠ Value.vNull ∧
    inv ≠ Value.vNull ∧ isd ≠ Value.vNull ∧ dd ≠ Value.vNull ∧ cur ≠ Value.vNull ∧
    no ≠ Value.vNull ∧ ∀ e ∈ l, ItemForm e

/-- A concrete environment for closed counterexamples and witnesses. -/
def cxEnv : Env := ⟨"2025-01-01", "2025-01-15", fun _ => "fresh", "ex1", "ex2"⟩

/-- Input whose `fromName` is the number 42 and whose `items` is an empty
array. -/
def cxFromName42 : Value := Value.obj [("fromName", Value.num 42), ("items", Value.arr [])]

/-- Input with a single non-string field. -/
def cxNonStringField : Value := Value.obj [("fromName", Value.num 42)]

/-- Input whose `items` is an array holding one non-object entry. -/
def cxItemsNull : Value := Value.obj [("items", Value.arr [Value.vNull])]

/-- An invoice whose two items share the id `"a"`. -/
def cxDupInv : Invoice :=
  ⟨"", "", "", "", "", "", "", "USD", 0, "", [⟨"a", "", 1, 0⟩, ⟨"a", "", 2, 0⟩]⟩

/-- A small fully-typed invoice used to witness the universally quantified
theorems at a concrete input. -/
def wInv : Invoice :=
  { fromName := "A", fromAddress := "1 Way\nTown", billToName := "B", billToAddress := ""
  , invoiceNumber := "INV-1", issueDate := "2025-01-01", dueDate := "2025-01-15"
  , currency := "USD", taxRatePct := 10, notes := ""
  , items := [⟨"i1", "design", 3, 1 / 10⟩, ⟨"i2", "build", 10, 90⟩] }

/-! ## Helper lemmas -/

theorem foldl_add_map_sum (f : α → ℚ) (l : List α) :
    ∀ a : ℚ, l.foldl (fun acc it => acc + f it) a = a + (l.map f).sum := by
  induction l with
  | nil => intro a; simp
  | cons x t ih => intro a; simp [ih, add_assoc]

theorem strictString_shape (o : Option Value) (d : String) :
    ∃ s, strictString o d = Value.str s := by
  unfold strictString
  rcases o with _ | w
  · exact ⟨d, rfl⟩
  · cases w <;> simp

theorem strictNum_shape (o : Option Value) (d : ℚ) :
    ∃ q, strictNum o d = Value.num q := by
  unfold strictNum
  rcases o with _ | w
  · exact ⟨d, rfl⟩
  · cases w <;> simp

theorem nullishGet_ne_null (v : Value) (k : String) (d : String) :
    nullishGet v k (Value.str d) ≠ Value.vNull := by
  unfold nullishGet
  rcases h : getField v k with _ | w
  · simp
  · cases w <;> simp

theorem nullishGet_of_some {v : Value} {k : String} {w : Value}
    (h : getField v k = some w) (hw : w ≠ Value.vNull) (d : Value) :
    nullishGet v k d = w := by
  unfold nullishGet
  rw [h]
  cases w <;> simp_all

theorem nullishGet_of_absent {v : Value} {k : String}
    (h : getField v k = none ∨ getField v k = some Value.vNull) (d : Value) :
    nullishGet v k d = d := by
  unfold nullishGet
  rcases h with h | h <;> rw [h]

theorem mapWithIndex_getElem? (f : ℕ → α → β) (l : List α) :
    ∀ (i j : ℕ), (mapWithIndex f i l)[j]? = (l[j]?).map (f (i + j)) := by
  induction l with
  | nil => intro i j; simp [mapWithIndex]
  | cons a t ih =>
    intro i j
    cases j with
    | zero => simp [mapWithIndex]
    | succ j =>
      have h1 : mapWithIndex f i (a :: t) = f i a :: mapWithIndex f (i + 1) t := rfl
      rw [h1, List.getElem?_cons_succ, List.getElem?_cons_succ, ih (i + 1) j]
      have h2 : i + 1 + j = i + (j + 1) := by omega
      rw [h2]

theorem mapWithIndex_eq_nil_iff (f : ℕ → α → β) (i : ℕ) (l : List α) :
    mapWithIndex f i l = [] ↔ l = [] := by
  cases l <;> simp [mapWithIndex]

theorem mapWithIndex_id_of_fix (f : ℕ → α → α) (l : List α)
    (h : ∀ i a, a ∈ l → f i a = a) : ∀ i, mapWithIndex f i l = l := by
  induction l with
  | nil => intro i; rfl
  | cons a t ih =>
    intro i
    have ha := h i a (by simp)
    have ht := ih fun j b hb => h j b (by simp [hb])
    simp [mapWithIndex, ha, ht]

theorem mem_mapWithIndex (f : ℕ → α → β) (l : List α) :
    ∀ (i : ℕ) (b : β), b ∈ mapWithIndex f i l → ∃ j a, a ∈ l ∧ b = f j a := by
  induction l with
  | nil => intro i b hb; simp [mapWithIndex] at hb
  | cons a t ih =>
    intro i b hb
    rcases (by simpa [mapWithIndex] using hb : b = f i a ∨ b ∈ mapWithIndex f (i + 1) t) with h | h
    · exact ⟨i, a, by simp, h⟩
    · obtain ⟨j, c, hc, rfl⟩ := ih (i + 1) b h
      exact ⟨j, c, by simp [hc], rfl⟩

/-! ## Claim C3: totals derive tax and total from the rounded subtotal -/

/-- C3: for every invoice, `totals` returns
`subtotal = round2 (Σ quantityᵢ · unitPriceᵢ)`,
`tax = round2 (subtotal · taxRatePct / 100)` computed from the
already-rounded subtotal, and `total = round2 (subtotal + tax)`; no
per-line rounding is involved. -/
theorem c3_totals_single_rounding (I : Invoice) :
    (totals I).subtotal = round2 ((I.items.map fun it => it.quantity * it.unitPrice).sum) ∧
    (totals I).tax = round2 ((totals I).subtotal * I.taxRatePct / 100) ∧
    (totals I).total = round2 ((totals I).subtotal + (totals I).tax) := by
  refine ⟨?_, rfl, rfl⟩
  show round2 (I.items.foldl (fun acc it => acc + it.quantity * it.unitPrice) 0) = _
  rw [foldl_add_map_sum (fun it => it.quantity * it.unitPrice) I.items 0, zero_add]

/-! ## Claim C9: removeItem -/

/-- C9 (amended): `removeItem` leaves a single-item list unchanged (the
whole invoice in fact), filters out every item with the given id when more
than one item is present, and keeps the list non-empty provided the ids are
pairwise distinct.  (With duplicated ids the list can empty out, see the
counterexample.) -/
theorem c9_remove_item_behavior (I : Invoice) (id : String) (hne : I.items ≠ []) :
    (I.items.length = 1 → removeItem id I = I) ∧
    (1 < I.items.length →
      (removeItem id I).items = I.items.filter fun it => it.id != id) ∧
    ((I.items.map LineItem.id).Nodup → (removeItem id I).items ≠ []) := by
  refine ⟨?_, ?_, ?_⟩
  · intro h
    unfold removeItem
    rw [if_pos (le_of_eq h)]
  · intro h
    unfold removeItem
    rw [if_neg (by omega : ¬ I.items.length ≤ 1)]
  · intro hnd
    by_cases hl : I.items.length ≤ 1
    · have h1 : (removeItem id I).items = I.items := by
        unfold removeItem; rw [if_pos hl]
      rw [h1]; exact hne
    · have h2 : (removeItem id I).items = I.items.filter fun it => it.id != id := by
        unfold removeItem; rw [if_neg hl]
      rw [h2]
      intro hemp
      have hall : ∀ x ∈ I.items, x.id = id := by
        intro x hx
        simpa using List.filter_eq_nil_iff.mp hemp x hx
      obtain ⟨a, t, hi⟩ : ∃ a t, I.items = a :: t := by
        cases hI : I.items with
        | nil => exact absurd hI hne
        | cons a t => exact ⟨a, t, rfl⟩
      obtain ⟨b, t2, ht⟩ : ∃ b t2, t = b :: t2 := by
        cases hT : t with
        | nil => rw [hi, hT] at hl; simp at hl
        | cons b t2 => exact ⟨b, t2, rfl⟩
      have ha : a.id = id := hall a (by rw [hi]; simp)
      have hb : b.id = id := hall b (by rw [hi, ht]; simp)
      have hnd2 := hnd
      rw [hi, ht] at hnd2
      have hcons : (a :: b :: t2).map LineItem.id = a.id :: b.id :: t2.map LineItem.id := rfl
      rw [hcons] at hnd2
      have hnotmem : a.id ∉ b.id :: t2.map LineItem.id := (List.nodup_cons.mp hnd2).1
      apply hnotmem
      rw [ha.trans hb.symm]
      exact List.mem_cons_self _ _

/-- Witness for C9 at a concrete invoice. -/
theorem c9_remove_item_behavior_witness :
    wInv.items ≠ [] ∧ (removeItem "zzz" wInv).items ≠ [] :=
  ⟨by simp [wInv], (c9_remove_item_behavior wInv "zzz" (by simp [wInv])).2.2 (by
    show (wInv.items.map LineItem.id).Nodup
    have : wInv.items.map LineItem.id = ["i1", "i2"] := rfl
    rw [this]
    decide)⟩

/-- C9 counterexample: with duplicated ids, `removeItem` empties the list,
contradicting "in all cases the items list stays non-empty". -/
theorem c9_remove_item_empties_counterexample :
    cxDupInv.items ≠ [] ∧ (removeItem "a" cxDupInv).items = [] := by
  refine ⟨by simp [cxDupInv], ?_⟩
  rfl

/-! ## Claim C10: updateItem frame conditions -/

/-- C10: `updateItem id patch` leaves every non-items field unchanged,
preserves the number and order of items, patches exactly the items whose id
matches (replacing only the fields present in the patch) and leaves all
other items untouched. -/
theorem c10_update_item_frame (id : String) (p : LineItemPatch) (I : Invoice) :
    (updateItem id p I).fromName = I.fromName ∧
    (updateItem id p I).fromAddress = I.fromAddress ∧
    (updateItem id p I).billToName = I.billToName ∧
    (updateItem id p I).billToAddress = I.billToAddress ∧
    (updateItem id p I).invoiceNumber = I.invoiceNumber ∧
    (updateItem id p I).issueDate = I.issueDate ∧
    (updateItem id p I).dueDate = I.dueDate ∧
    (updateItem id p I).currency = I.currency ∧
    (updateItem id p I).taxRatePct = I.taxRatePct ∧
    (updateItem id p I).notes = I.notes ∧
    (updateItem id p I).items.length = I.items.length ∧
    ∀ (i : ℕ) (it : LineItem), I.items[i]? = some it →
      (it.id ≠ id → (updateItem id p I).items[i]? = some it) ∧
      (it.id = id → (updateItem id p I).items[i]? = some (applyPatch it p)) := by
  refine ⟨rfl, rfl, rfl, rfl, rfl, rfl, rfl, rfl, rfl, rfl, by simp [updateItem], ?_⟩
  intro i it hit
  constructor <;> intro h <;> simp [updateItem, List.getElem?_map, hit, h]

/-- Witness for C10 at a concrete invoice, patching the first item's
description only. -/
theorem c10_update_item_frame_witness :
    wInv.items[0]? = some ⟨"i1", "design", 3, 1 / 10⟩ ∧
    (updateItem "i1" ⟨none, some "redesign", none, none⟩ wInv).items[0]? =
      some (applyPatch ⟨"i1", "design", 3, 1 / 10⟩ ⟨none, some "redesign", none, none⟩) :=
  ⟨rfl,
   ((c10_update_item_frame "i1" ⟨none, some "redesign", none, none⟩ wInv).2.2.2.2.2.2.2.2.2.2.2
     0 ⟨"i1", "design", 3, 1 / 10⟩ rfl).2 rfl⟩

/-! ## Claim C7: string-field defaulting -/

/-- C7 (amended): a `??`-defaulted string field of the invoice becomes `""`
exactly when the input field is absent (`undefined`) or `null`; a present
non-string, non-null value passes through unchanged (see the
counterexample), and `null` input itself is outside the function's domain. -/
theorem c7_string_defaulting (env : Env) (v : Value) (_hv : v ≠ Value.vNull) (f : String)
    (hf : f ∈ (["fromName", "fromAddress", "billToName", "billToAddress",
                "invoiceNumber", "notes"] : List String))
    (habs : getField v f = none ∨ getField v f = some Value.vNull) :
    getField (normalizeValue env v) f = some (Value.str "") := by
  fin_cases hf <;>
    simp [normalizeValue, getField, List.foldl_cons, List.foldl_nil, nullishGet_of_absent habs]

/-- Witness for C7 at the empty object and the `notes` field. -/
theorem c7_string_defaulting_witness :
    (Value.obj [] ≠ Value.vNull) ∧
    getField (normalizeValue cxEnv (Value.obj [])) "notes" = some (Value.str "") :=
  ⟨by simp, c7_string_defaulting cxEnv (Value.obj []) (by simp) "notes" (by simp) (Or.inl rfl)⟩

/-- C7 counterexample: a present non-string `fromName` (the number 42) is
passed through, not replaced by `""`. -/
theorem c7_nonstring_passthrough_counterexample :
    getField (normalizeValue cxEnv cxNonStringField) "fromName" = some (Value.num 42) ∧
    some (Value.num 42) ≠ some (Value.str "") := by
  exact ⟨rfl, by simp⟩

/-! ## Computation lemmas: field reads of a `normalizeInvoice` result -/

theorem getField_norm_fromName (env : Env) (v : Value) :
    getField (normalizeValue env v) "fromName" =
      some (nullishGet v "fromName" (Value.str "")) := rfl

theorem getField_norm_fromAddress (env : Env) (v : Value) :
    getField (normalizeValue env v) "fromAddress" =
      some (nullishGet v "fromAddress" (Value.str "")) := rfl

theorem getField_norm_billToName (env : Env) (v : Value) :
    getField (normalizeValue env v) "billToName" =
      some (nullishGet v "billToName" (Value.str "")) := rfl

theorem getField_norm_billToAddress (env : Env) (v : Value) :
    getField (normalizeValue env v) "billToAddress" =
      some (nullishGet v "billToAddress" (Value.str "")) := rfl

theorem getField_norm_invoiceNumber (env : Env) (v : Value) :
    getField (normalizeValue env v) "invoiceNumber" =
      some (nullishGet v "invoiceNumber" (Value.str "")) := rfl

theorem getField_norm_issueDate (env : Env) (v : Value) :
    getField (normalizeValue env v) "issueDate" =
      some (nullishGet v "issueDate" (Value.str env.today)) := rfl

theorem getField_norm_dueDate (env : Env) (v : Value) :
    getField (normalizeValue env v) "dueDate" =
      some (nullishGet v "dueDate" (Value.str env.plus14)) := rfl

theorem getField_norm_currency (env : Env) (v : Value) :
    getField (normalizeValue env v) "currency" =
      some (nullishGet v "currency" (Value.str "USD")) := rfl

theorem getField_norm_taxRatePct (env : Env) (v : Value) :
    getField (normalizeValue env v) "taxRatePct" =
      some (strictNum (getField v "taxRatePct") 0) := rfl

theorem getField_norm_notes (env : Env) (v : Value) :
    getField (normalizeValue env v) "notes" =
      some (nullishGet v "notes" (Value.str "")) := rfl

theorem getField_norm_items (env : Env) (v : Value) :
    getField (normalizeValue env v) "items" =
      some (match getField v "items" with
            | some (Value.arr l) => Value.arr (mapWithIndex (coerceItem env) 0 l)
            | _ => Value.arr [defaultItem env]) := rfl

/-! ## Claim C2: shape of normalizeInvoice output -/

/-- C2 (amended): for every non-null input, the normalized result has a
numeric `taxRatePct` and an `items` array whose entries are all well-formed
item objects, `items` being empty exactly when the input's `items` is an
empty array; the `??`-defaulted string fields are strings whenever the
corresponding input field is absent, `null`, or itself a string.  (A
present non-string value passes through, and an empty input array yields
an empty items list, see the counterexample.) -/
theorem c2_normalized_shape (env : Env) (v : Value) (_hv : v ≠ Value.vNull) :
    (∃ q : ℚ, getField (normalizeValue env v) "taxRatePct" = some (Value.num q)) ∧
    (∃ l : List Value,
      getField (normalizeValue env v) "items" = some (Value.arr l) ∧
      (∀ e ∈ l, ItemForm e) ∧
      (l = [] ↔ getField v "items" = some (Value.arr []))) ∧
    (∀ f ∈ (["fromName", "fromAddress", "billToName", "billToAddress", "invoiceNumber",
             "issueDate", "dueDate", "currency", "notes"] : List String),
      (getField v f = none ∨ getField v f = some Value.vNull ∨
        (∃ s, getField v f = some (Value.str s))) →
      ∃ s, getField (normalizeValue env v) f = some (Value.str s)) := by
  refine ⟨?_, ?_, ?_⟩
  · obtain ⟨q, hq⟩ := strictNum_shape (getField v "taxRatePct") 0
    exact ⟨q, by rw [getField_norm_taxRatePct, hq]⟩
  · have hdefault : ItemForm (defaultItem env) :=
      ⟨env.uidAt 0, "Service", 1, 0, rfl⟩
    rcases hit : getField v "items" with _ | w
    · refine ⟨[defaultItem env], ?_, ?_, ?_⟩
      · rw [getField_norm_items, hit]
      · intro e he
        rw [List.mem_singleton] at he
        rw [he]; exact hdefault
      · simp [hit]
    · rcases w with _ | b | q | s | l | kvs
      case arr =>
        refine ⟨mapWithIndex (coerceItem env) 0 l, ?_, ?_, ?_⟩
        · rw [getField_norm_items, hit]
        · intro e he
          obtain ⟨j, a, _, rfl⟩ := mem_mapWithIndex (coerceItem env) l 0 e he
          obtain ⟨i1, h1⟩ := strictString_shape (getField a "id") (env.uidAt j)
          obtain ⟨d1, h2⟩ := strictString_shape (getField a "description") ""
          obtain ⟨q1, h3⟩ := strictNum_shape (getField a "quantity") 1
          obtain ⟨u1, h4⟩ := strictNum_shape (getField a "unitPrice") 0
          exact ⟨i1, d1, q1, u1, by rw [coerceItem, h1, h2, h3, h4]⟩
        · simp [mapWithIndex_eq_nil_iff, hit]
      all_goals
        refine ⟨[defaultItem env], ?_, ?_, ?_⟩
        all_goals first
          | rw [getField_norm_items, hit]
          | (intro e he
             rw [List.mem_singleton] at he
             rw [he]; exact ⟨env.uidAt 0, "Service", 1, 0, rfl⟩)
          | simp [hit]
  · intro f hf habs
    have hs : ∃ s : String, ∀ d : String, nullishGet v f (Value.str d) = Value.str d ∨
        nullishGet v f (Value.str d) = Value.str s := by
      rcases habs with h | h | ⟨s, h⟩
      · exact ⟨"", fun d => Or.inl (nullishGet_of_absent (Or.inl h) _)⟩
      · exact ⟨"", fun d => Or.inl (nullishGet_of_absent (Or.inr h) _)⟩
      · exact ⟨s, fun d => Or.inr (nullishGet_of_some h (by simp) _)⟩
    obtain ⟨s, hsd⟩ := hs
    fin_cases hf
    · rcases hsd "" with h | h <;> exact ⟨_, by rw [getField_norm_fromName, h]⟩
    · rcases hsd "" with h | h <;> exact ⟨_, by rw [getField_norm_fromAddress, h]⟩
    · rcases hsd "" with h | h <;> exact ⟨_, by rw [getField_norm_billToName, h]⟩
    · rcases hsd "" with h | h <;> exact ⟨_, by rw [getField_norm_billToAddress, h]⟩
    · rcases hsd "" with h | h <;> exact ⟨_, by rw [getField_norm_invoiceNumber, h]⟩
    · rcases hsd env.today with h | h <;> exact ⟨_, by rw [getField_norm_issueDate, h]⟩
    · rcases hsd env.plus14 with h | h <;> exact ⟨_, by rw [getField_norm_dueDate, h]⟩
    · rcases hsd "USD" with h | h <;> exact ⟨_, by rw [getField_norm_currency, h]⟩
    · rcases hsd "" with h | h <;> exact ⟨_, by rw [getField_norm_notes, h]⟩

/-- Witness for C2 at the empty object. -/
theorem c2_normalized_shape_witness :
    (Value.obj [] ≠ Value.vNull) ∧
    (∃ q : ℚ, getField (normalizeValue cxEnv (Value.obj [])) "taxRatePct" =
      some (Value.num q)) :=
  ⟨by simp, (c2_normalized_shape cxEnv (Value.obj []) (by simp)).1⟩

/-- C2 counterexample: on input with a numeric `fromName` and an empty
`items` array, the normalized result keeps the number 42 in `fromName`
(wrong primitive type) and has an empty items list. -/
theorem c2_type_invariant_counterexample :
    getField (normalizeValue cxEnv cxFromName42) "fromName" = some (Value.num 42) ∧
    getField (normalizeValue cxEnv cxFromName42) "items" = some (Value.arr []) :=
  ⟨rfl, rfl⟩

/-! ## Claim C6: items coercion -/

/-- C6 (amended): if the input's `items` is not an array, the result is the
single default line item (`"Service"`, quantity 1, price 0, fresh id); if it
is an array — whether or not its entries are object-like — each entry is
individually coerced at its index: `id` kept exactly when it is a string
(else a fresh id), `description` defaulted to `""` when not a string,
`quantity` to `1` when not a number, `unitPrice` to `0` when not a number.
(A sequence of non-object entries is coerced entry-wise, not replaced by
the single `"Service"` item, see the counterexample.) -/
theorem c6_items_coercion (env : Env) (v : Value) (_hv : v ≠ Value.vNull) :
    ((∀ l : List Value, getField v "items" ≠ some (Value.arr l)) →
      getField (normalizeValue env v) "items" = some (Value.arr [defaultItem env])) ∧
    (∀ l : List Value, getField v "items" = some (Value.arr l) →
      getField (normalizeValue env v) "items" =
        some (Value.arr (mapWithIndex (coerceItem env) 0 l)) ∧
      ∀ (i : ℕ) (e : Value), l[i]? = some e →
        (mapWithIndex (coerceItem env) 0 l)[i]? = some (Value.obj
          [ ("id", match getField e "id" with
                   | some (Value.str s) => Value.str s
                   | _ => Value.str (env.uidAt i))
          , ("description", match getField e "description" with
                   | some (Value.str s) => Value.str s
                   | _ => Value.str "")
          , ("quantity", match getField e "quantity" with
                   | some (Value.num q) => Value.num q
                   | _ => Value.num 1)
          , ("unitPrice", match getField e "unitPrice" with
                   | some (Value.num q) => Value.num q
                   | _ => Value.num 0) ])) := by
  constructor
  · intro hno
    rw [getField_norm_items]
    rcases hit : getField v "items" with _ | w
    · rfl
    · rcases w with _ | b | q | s | l | kvs
      case arr => exact absurd hit (hno l)
      all_goals rfl
  · intro l hit
    refine ⟨by rw [getField_norm_items, hit], ?_⟩
    intro i e he
    rw [mapWithIndex_getElem? (coerceItem env) l 0 i, he]
    have h0 : (0 : ℕ) + i = i := by omega
    rw [h0]
    rfl

/-- Witness for C6: a one-entry array whose entry has a string id. -/
theorem c6_items_coercion_witness :
    getField (Value.obj [("items", Value.arr [Value.obj [("id", Value.str "z")]])]) "items" =
      some (Value.arr [Value.obj [("id", Value.str "z")]]) ∧
    getField (normalizeValue cxEnv
        (Value.obj [("items", Value.arr [Value.obj [("id", Value.str "z")]])])) "items" =
      some (Value.arr (mapWithIndex (coerceItem cxEnv) 0 [Value.obj [("id", Value.str "z")]])) :=
  ⟨rfl,
   ((c6_items_coercion cxEnv (Value.obj [("items", Value.arr [Value.obj [("id", Value.str "z")]])])
      (by simp)).2 [Value.obj [("id", Value.str "z")]] rfl).1⟩

/-- C6 counterexample: an array holding one non-object entry (`null`) is
coerced entry-wise into an item with empty description, not replaced by the
single default `"Service"` item the claim describes. -/
theorem c6_nonobject_entries_counterexample :
    getField (normalizeValue cxEnv cxItemsNull) "items" =
      some (Value.arr [Value.obj
        [ ("id", Value.str "fresh"), ("description", Value.str "")
        , ("quantity", Value.num 1), ("unitPrice", Value.num 0) ]]) ∧
    Value.str "" ≠ Value.str "Service" :=
  ⟨rfl, by simp⟩

/-! ## Claim C4: idempotence of normalizeInvoice -/

theorem itemForm_coerce (env : Env) (i : ℕ) (e : Value) : ItemForm (coerceItem env i e) := by
  obtain ⟨i1, h1⟩ := strictString_shape (getField e "id") (env.uidAt i)
  obtain ⟨d1, h2⟩ := strictString_shape (getField e "description") ""
  obtain ⟨q1, h3⟩ := strictNum_shape (getField e "quantity") 1
  obtain ⟨u1, h4⟩ := strictNum_shape (getField e "unitPrice") 0
  exact ⟨i1, d1, q1, u1, by rw [coerceItem, h1, h2, h3, h4]⟩

theorem coerceItem_of_itemForm (env2 : Env) (j : ℕ) {e : Value} (h : ItemForm e) :
    coerceItem env2 j e = e := by
  obtain ⟨i1, d1, q1, u1, rfl⟩ := h
  rfl

theorem normalizedForm_normalize (env : Env) (v : Value) :
    NormalizedForm (normalizeValue env v) := by
  obtain ⟨q, hq⟩ := strictNum_shape (getField v "taxRatePct") 0
  have hdef : ∀ e ∈ [defaultItem env], ItemForm e := by
    intro e he
    rw [List.mem_singleton] at he
    rw [he]
    exact ⟨env.uidAt 0, "Service", 1, 0, rfl⟩
  rcases hit : getField v "items" with _ | w
  case none =>
    exact ⟨nullishGet v "fromName" (Value.str ""), nullishGet v "fromAddress" (Value.str ""),
      nullishGet v "billToName" (Value.str ""), nullishGet v "billToAddress" (Value.str ""),
      nullishGet v "invoiceNumber" (Value.str ""), nullishGet v "issueDate" (Value.str env.today),
      nullishGet v "dueDate" (Value.str env.plus14), nullishGet v "currency" (Value.str "USD"),
      nullishGet v "notes" (Value.str ""), q, [defaultItem env],
      by rw [normalizeValue, hit, hq],
      nullishGet_ne_null _ _ _, nullishGet_ne_null _ _ _, nullishGet_ne_null _ _ _,
      nullishGet_ne_null _ _ _, nullishGet_ne_null _ _ _, nullishGet_ne_null _ _ _,
      nullishGet_ne_null _ _ _, nullishGet_ne_null _ _ _, nullishGet_ne_null _ _ _, hdef⟩
  case some =>
    rcases w with _ | b | q' | s | l | kvs
    case arr =>
      refine ⟨nullishGet v "fromName" (Value.str ""), nullishGet v "fromAddress" (Value.str ""),
        nullishGet v "billToName" (Value.str ""), nullishGet v "billToAddress" (Value.str ""),
        nullishGet v "invoiceNumber" (Value.str ""), nullishGet v "issueDate" (Value.str env.today),
        nullishGet v "dueDate" (Value.str env.plus14), nullishGet v "currency" (Value.str "USD"),
        nullishGet v "notes" (Value.str ""), q, mapWithIndex (coerceItem env) 0 l,
        by rw [normalizeValue, hit, hq],
        nullishGet_ne_null _ _ _, nullishGet_ne_null _ _ _, nullishGet_ne_null _ _ _,
        nullishGet_ne_null _ _ _, nullishGet_ne_null _ _ _, nullishGet_ne_null _ _ _,
        nullishGet_ne_null _ _ _, nullishGet_ne_null _ _ _, nullishGet_ne_null _ _ _, ?_⟩
      intro e he
      obtain ⟨j, a, _, rfl⟩ := mem_mapWithIndex (coerceItem env) l 0 e he
      exact itemForm_coerce env j a
    all_goals
      exact ⟨nullishGet v "fromName" (Value.str ""), nullishGet v "fromAddress" (Value.str ""),
        nullishGet v "billToName" (Value.str ""), nullishGet v "billToAddress" (Value.str ""),
        nullishGet v "invoiceNumber" (Value.str ""), nullishGet v "issueDate" (Value.str env.today),
        nullishGet v "dueDate" (Value.str env.plus14), nullishGet v "currency" (Value.str "USD"),
        nullishGet v "notes" (Value.str ""), q, [defaultItem env],
        by rw [normalizeValue, hit, hq],
        nullishGet_ne_null _ _ _, nullishGet_ne_null _ _ _, nullishGet_ne_null _ _ _,
        nullishGet_ne_null _ _ _, nullishGet_ne_null _ _ _, nullishGet_ne_null _ _ _,
        nullishGet_ne_null _ _ _, nullishGet_ne_null _ _ _, nullishGet_ne_null _ _ _, hdef⟩

theorem normalize_of_normalizedForm (env2 : Env) {w : Value} (h : NormalizedForm w) :
    normalizeValue env2 w = w := by
  obtain ⟨fn, fa, bn, ba, inv, isd, dd, cur, no, q, l, rfl,
    hfn, hfa, hbn, hba, hinv, hisd, hdd, hcur, hno, hl⟩ := h
  have hitems : mapWithIndex (coerceItem env2) 0 l = l :=
    mapWithIndex_id_of_fix (coerceItem env2) l
      (fun i a ha => coerceItem_of_itemForm env2 i (hl a ha)) 0
  rw [normalizeValue]
  simp only [Value.obj.injEq, List.cons.injEq, Prod.mk.injEq, true_and, and_true]
  refine ⟨?_, ?_, ?_, ?_, ?_, ?_, ?_, ?_, ?_, ?_, ?_⟩
  · exact nullishGet_of_some (by rfl) hfn _
  · exact nullishGet_of_some (by rfl) hfa _
  · exact nullishGet_of_some (by rfl) hbn _
  · exact nullishGet_of_some (by rfl) hba _
  · exact nullishGet_of_some (by rfl) hinv _
  · exact nullishGet_of_some (by rfl) hisd _
  · exact nullishGet_of_some (by rfl) hdd _
  · exact nullishGet_of_some (by rfl) hcur _
  · rfl
  · exact nullishGet_of_some (by rfl) hno _
  · show Value.arr (mapWithIndex (coerceItem env2) 0 l) = Value.arr l
    rw [hitems]

/-- C4: `normalizeInvoice` is idempotent — renormalizing a normalized value
(with any later date defaults and any fresh `uid` supply) returns it
unchanged; in particular existing string item ids are preserved, never
regenerated. -/
theorem c4_normalize_idempotent (env env2 : Env) (v : Value) (_hv : v ≠ Value.vNull) :
    normalizeValue env2 (normalizeValue env v) = normalizeValue env v :=
  normalize_of_normalizedForm env2 (normalizedForm_normalize env v)

/-- Witness for C4 at the empty object. -/
theorem c4_normalize_idempotent_witness :
    (Value.obj [] ≠ Value.vNull) ∧
    normalizeValue cxEnv (normalizeValue cxEnv (Value.obj [])) =
      normalizeValue cxEnv (Value.obj []) :=
  ⟨by simp, c4_normalize_idempotent cxEnv cxEnv (Value.obj []) (by simp)⟩

/-! ## Claim C8: decode failure handling -/

/-- C8 (amended): any present token failing at any decode stage (malformed
base64, undecodable JSON text, or a falsy parsed value) yields the freshly
normalized example invoice — no error propagates — but with the SAME empty
status string as the no-data case: the caller cannot distinguish "data
present but undecodable" from "no data present".  (Only a successful decode
sets the non-empty status.) -/
theorem c8_decode_failure_fallback (env : Env) (tok : String) (htok : tok ≠ "")
    (hfail : base64UrlDecodeUtf8 tok = none ∨
      (∃ j, base64UrlDecodeUtf8 tok = some j ∧ jsonParse j = none) ∨
      (∃ j v, base64UrlDecodeUtf8 tok = some j ∧ jsonParse j = some v ∧ isFalsy v = true)) :
    parseInvoiceFromUrl env (some tok) =
      (normalizeValue env (invToValue (exampleInvoice env)), "") ∧
    parseInvoiceFromUrl env (some tok) = parseInvoiceFromUrl env none := by
  have hfb : parseInvoiceFromUrl env none =
      (normalizeValue env (invToValue (exampleInvoice env)), "") := rfl
  have hmain : parseInvoiceFromUrl env (some tok) =
      (normalizeValue env (invToValue (exampleInvoice env)), "") := by
    show (if tok = "" then (normalizeValue env (invToValue (exampleInvoice env)), "")
          else match base64UrlDecodeUtf8 tok with
            | none => (normalizeValue env (invToValue (exampleInvoice env)), "")
            | some json =>
              match jsonParse json with
              | none => (normalizeValue env (invToValue (exampleInvoice env)), "")
              | some parsed =>
                if isFalsy parsed then (normalizeValue env (invToValue (exampleInvoice env)), "")
                else (normalizeValue env parsed, "Loaded invoice from share link.")) = _
    rw [if_neg htok]
    rcases hfail with h | ⟨j, hj, hp⟩ | ⟨j, v, hj, hp, hf⟩
    · rw [h]
    · rw [hj]
      show (match jsonParse j with
            | none => (normalizeValue env (invToValue (exampleInvoice env)), "")
            | some parsed =>
              if isFalsy parsed then (normalizeValue env (invToValue (exampleInvoice env)), "")
              else (normalizeValue env parsed, "Loaded invoice from share link.")) = _
      rw [hp]
    · rw [hj]
      show (match jsonParse j with
            | none => (normalizeValue env (invToValue (exampleInvoice env)), "")
            | some parsed =>
              if isFalsy parsed then (normalizeValue env (invToValue (exampleInvoice env)), "")
              else (normalizeValue env parsed, "Loaded invoice from share link.")) = _
      rw [hp]
      show (if isFalsy v then (normalizeValue env (invToValue (exampleInvoice env)), "")
            else (normalizeValue env v, "Loaded invoice from share link.")) = _
      rw [if_pos hf]
  exact ⟨hmain, hmain.trans hfb.symm⟩

/-- Witness for C8 at the garbage token of the spec's example. -/
theorem c8_decode_failure_fallback_witness :
    ("not-base64!!" ≠ "") ∧
    parseInvoiceFromUrl cxEnv (some "not-base64!!") = parseInvoiceFromUrl cxEnv none :=
  ⟨by decide,
   (c8_decode_failure_fallback cxEnv "not-base64!!" (by decide) (Or.inl (by rfl))).2⟩

/-- C8 counterexample: decoding the garbage token `"not-base64!!"` does
yield the fallback invoice without raising, but its status is the empty
string — identical to the absent-data status — so the claimed
"status that lets the caller distinguish" does not exist. -/
theorem c8_status_indistinguishable_counterexample :
    (parseInvoiceFromUrl cxEnv (some "not-base64!!")).1 =
      normalizeValue cxEnv (invToValue (exampleInvoice cxEnv)) ∧
    (parseInvoiceFromUrl cxEnv (some "not-base64!!")).2 = "" ∧
    (parseInvoiceFromUrl cxEnv none).2 = "" :=
  ⟨rfl, rfl, rfl⟩

/-! ## UTF-8 round-trip -/

theorem char_toNat_ofNat (n : ℕ) (h : n.isValidChar) : (Char.ofNat n).toNat = n := by
  have h32 : n < 2 ^ 32 := by
    rcases h with h | ⟨h1, h2⟩ <;> omega
  simp [Char.ofNat, h, Char.ofNatAux, Char.toNat, UInt32.toNat, BitVec.toNat_ofNatLt]

theorem char_valid_toNat (c : Char) :
    c.toNat < 0xd800 ∨ (0xdfff < c.toNat ∧ c.toNat < 0x110000) := by
  have h := c.valid
  unfold UInt32.isValidChar Nat.isValidChar at h
  exact h

theorem utf8EncodeChar_lt256 (c : ℕ) (hc : c < 0x110000) :
    ∀ b ∈ utf8EncodeChar c, b < 256 := by
  intro b hb
  unfold utf8EncodeChar at hb
  split at hb
  · simp at hb; omega
  · split at hb
    · simp at hb; rcases hb with rfl | rfl <;> omega
    · split at hb
      · simp at hb; rcases hb with rfl | rfl | rfl <;> omega
      · simp at hb; rcases hb with rfl | rfl | rfl | rfl <;> omega

theorem utf8EncodeList_lt256 (s : List Char) : ∀ b ∈ utf8EncodeList s, b < 256 := by
  induction s with
  | nil => intro b hb; simp [utf8EncodeList] at hb
  | cons c t ih =>
    intro b hb
    rw [utf8EncodeList] at hb
    rcases List.mem_append.mp hb with h | h
    · have hc : c.toNat < 0x110000 := by
        rcases char_valid_toNat c with h1 | ⟨h1, h2⟩ <;> omega
      exact utf8EncodeChar_lt256 c.toNat hc b h
    · exact ih b h

theorem utf8DecodeList_cons (b : ℕ) (rest : List ℕ) :
    utf8DecodeList (b :: rest) =
      (utf8DecodeStep b rest).1 :: utf8DecodeList (rest.drop (utf8DecodeStep b rest).2) := by
  rw [utf8DecodeList]

theorem utf8_char_roundtrip (c : Char) (bs : List ℕ) :
    utf8DecodeList (utf8EncodeChar c.toNat ++ bs) = c :: utf8DecodeList bs := by
  have hval := char_valid_toNat c
  have hofn : Char.ofNat c.toNat = c := Char.ofNat_toNat c
  set n := c.toNat with hn
  by_cases h1 : n < 0x80
  · rw [show utf8EncodeChar n = [n] from by unfold utf8EncodeChar; rw [if_pos h1]]
    rw [show ([n] ++ bs : List ℕ) = n :: bs from rfl, utf8DecodeList_cons]
    rw [show utf8DecodeStep n bs = (Char.ofNat n, 0) from by
      unfold utf8DecodeStep; rw [if_pos h1]]
    rw [hofn]
    rfl
  · by_cases h2 : n < 0x800
    · rw [show utf8EncodeChar n = [0xC0 + n / 64, 0x80 + n % 64] from by
        unfold utf8EncodeChar; rw [if_neg h1, if_pos h2]]
      rw [show ([0xC0 + n / 64, 0x80 + n % 64] ++ bs : List ℕ) =
        (0xC0 + n / 64) :: (0x80 + n % 64) :: bs from rfl, utf8DecodeList_cons]
      rw [show utf8DecodeStep (0xC0 + n / 64) ((0x80 + n % 64) :: bs) = (Char.ofNat n, 1) from by
        unfold utf8DecodeStep
        rw [if_neg (by omega)]
        rw [if_pos (by simp only [decide_eq_true_eq, Bool.and_eq_true]; omega)]
        show (if isContByte (0x80 + n % 64) = true then
            (Char.ofNat ((0xC0 + n / 64 - 0xC0) * 64 + (0x80 + n % 64 - 0x80)), 1)
          else (replChar, 0)) = _
        rw [if_pos (by simp only [isContByte, decide_eq_true_eq, Bool.and_eq_true]; omega)]
        rw [show (0xC0 + n / 64 - 0xC0) * 64 + (0x80 + n % 64 - 0x80) = n by omega]]
      rw [hofn]
      rfl
    · by_cases h3 : n < 0x10000
      · rw [show utf8EncodeChar n = [0xE0 + n / 4096, 0x80 + n / 64 % 64, 0x80 + n % 64] from by
          unfold utf8EncodeChar; rw [if_neg h1, if_neg h2, if_pos h3]]
        rw [show ([0xE0 + n / 4096, 0x80 + n / 64 % 64, 0x80 + n % 64] ++ bs : List ℕ) =
          (0xE0 + n / 4096) :: (0x80 + n / 64 % 64) :: (0x80 + n % 64) :: bs from rfl,
          utf8DecodeList_cons]
        have hok : okByte1of3 (0xE0 + n / 4096) (0x80 + n / 64 % 64) = true := by
          unfold okByte1of3
          by_cases he0 : n / 4096 = 0
          · rw [if_pos (by omega)]
            simp only [decide_eq_true_eq, Bool.and_eq_true]
            omega
          · by_cases hed : n / 4096 = 13
            · rw [if_neg (by omega), if_pos (by omega)]
              simp only [decide_eq_true_eq, Bool.and_eq_true]
              have hltd8 : n < 0xd800 := by
                rcases hval with h | ⟨ha, hb⟩ <;> omega
              omega
            · rw [if_neg (by omega), if_neg (by omega)]
              simp only [isContByte, decide_eq_true_eq, Bool.and_eq_true]
              omega
        rw [show utf8DecodeStep (0xE0 + n / 4096)
            ((0x80 + n / 64 % 64) :: (0x80 + n % 64) :: bs) = (Char.ofNat n, 2) from by
          unfold utf8DecodeStep
          rw [if_neg (by omega)]
          rw [if_neg (by simp only [decide_eq_true_eq, Bool.and_eq_true]; omega)]
          rw [if_pos (by simp only [decide_eq_true_eq, Bool.and_eq_true]; omega)]
          show (if (okByte1of3 (0xE0 + n / 4096) (0x80 + n / 64 % 64) &&
              isContByte (0x80 + n % 64)) = true then
              (Char.ofNat ((0xE0 + n / 4096 - 0xE0) * 4096 + (0x80 + n / 64 % 64 - 0x80) * 64 +
                (0x80 + n % 64 - 0x80)), 2)
            else (replChar, 0)) = _
          rw [if_pos (by
            simp only [hok, isContByte, decide_eq_true_eq, Bool.and_eq_true, true_and]
            omega)]
          rw [show (0xE0 + n / 4096 - 0xE0) * 4096 + (0x80 + n / 64 % 64 - 0x80) * 64 +
            (0x80 + n % 64 - 0x80) = n by omega]]
        rw [hofn]
        rfl
      · have h4 : n < 0x110000 := by rcases hval with h | ⟨ha, hb⟩ <;> omega
        rw [show utf8EncodeChar n =
            [0xF0 + n / 262144, 0x80 + n / 4096 % 64, 0x80 + n / 64 % 64, 0x80 + n % 64] from by
          unfold utf8EncodeChar; rw [if_neg h1, if_neg h2, if_neg h3]]
        rw [show ([0xF0 + n / 262144, 0x80 + n / 4096 % 64, 0x80 + n / 64 % 64, 0x80 + n % 64]
            ++ bs : List ℕ) =
          (0xF0 + n / 262144) :: (0x80 + n / 4096 % 64) :: (0x80 + n / 64 % 64) ::
            (0x80 + n % 64) :: bs from rfl, utf8DecodeList_cons]
        have hok : okByte1of4 (0xF0 + n / 262144) (0x80 + n / 4096 % 64) = true := by
          unfold okByte1of4
          by_cases hf0 : n / 262144 = 0
          · rw [if_pos (by omega)]
            simp only [decide_eq_true_eq, Bool.and_eq_true]
            omega
          · by_cases hf4 : n / 262144 = 4
            · rw [if_neg (by omega), if_pos (by omega)]
              simp only [decide_eq_true_eq, Bool.and_eq_true]
              omega
            · rw [if_neg (by omega), if_neg (by omega)]
              simp only [isContByte, decide_eq_true_eq, Bool.and_eq_true]
              omega
        rw [show utf8DecodeStep (0xF0 + n / 262144)
            ((0x80 + n / 4096 % 64) :: (0x80 + n / 64 % 64) :: (0x80 + n % 64) :: bs) =
            (Char.ofNat n, 3) from by
          unfold utf8DecodeStep
          rw [if_neg (by omega)]
          rw [if_neg (by simp only [decide_eq_true_eq, Bool.and_eq_true]; omega)]
          rw [if_neg (by simp only [decide_eq_true_eq, Bool.and_eq_true]; omega)]
          rw [if_pos (by simp only [decide_eq_true_eq, Bool.and_eq_true]; omega)]
          show (if (okByte1of4 (0xF0 + n / 262144) (0x80 + n / 4096 % 64) &&
              isContByte (0x80 + n / 64 % 64) && isContByte (0x80 + n % 64)) = true then
              (Char.ofNat ((0xF0 + n / 262144 - 0xF0) * 262144 +
                (0x80 + n / 4096 % 64 - 0x80) * 4096 + (0x80 + n / 64 % 64 - 0x80) * 64 +
                (0x80 + n % 64 - 0x80)), 3)
            else (replChar, 0)) = _
          rw [if_pos (by
            simp only [hok, isContByte, decide_eq_true_eq, Bool.and_eq_true, true_and]
            omega)]
          rw [show (0xF0 + n / 262144 - 0xF0) * 262144 + (0x80 + n / 4096 % 64 - 0x80) * 4096 +
            (0x80 + n / 64 % 64 - 0x80) * 64 + (0x80 + n % 64 - 0x80) = n by omega]]
        rw [hofn]
        rfl

theorem utf8_roundtrip (s : List Char) : utf8DecodeList (utf8EncodeList s) = s := by
  induction s with
  | nil => rw [utf8EncodeList, utf8DecodeList]
  | cons c t ih =>
    rw [utf8EncodeList, utf8_char_roundtrip, ih]

/-! ## Base64 round-trip -/

theorem b64Val_b64Char : ∀ v < 64, b64Val (b64Char v) = some v := by decide

theorem b64Char_facts : ∀ v < 64,
    b64Char v ≠ '=' ∧ isAsciiWs (b64Char v) = false ∧
    urlUnsubChar (urlSubChar (b64Char v)) = b64Char v ∧ urlSubChar (b64Char v) ≠ '=' := by
  decide

theorem b64EncodeChunks_mem : ∀ (bytes : List ℕ), (∀ b ∈ bytes, b < 256) →
    ∀ c ∈ b64EncodeChunks bytes, ∃ v, v < 64 ∧ c = b64Char v := by
  intro bytes
  induction bytes using b64EncodeChunks.induct with
  | case1 =>
    intro _ c hc
    simp [b64EncodeChunks] at hc
  | case2 b0 =>
    intro hlt c hc
    have h0 : b0 < 256 := hlt b0 (by simp)
    rw [b64EncodeChunks] at hc
    simp only [List.mem_cons, List.not_mem_nil, or_false] at hc
    rcases hc with rfl | rfl
    · exact ⟨b0 / 4, by omega, rfl⟩
    · exact ⟨b0 % 4 * 16, by omega, rfl⟩
  | case3 b0 b1 =>
    intro hlt c hc
    have h0 : b0 < 256 := hlt b0 (by simp)
    have h1 : b1 < 256 := hlt b1 (by simp)
    rw [b64EncodeChunks] at hc
    simp only [List.mem_cons, List.not_mem_nil, or_false] at hc
    rcases hc with rfl | rfl | rfl
    · exact ⟨b0 / 4, by omega, rfl⟩
    · exact ⟨b0 % 4 * 16 + b1 / 16, by omega, rfl⟩
    · exact ⟨b1 % 16 * 4, by omega, rfl⟩
  | case4 b0 b1 b2 rest ih =>
    intro hlt c hc
    have h0 : b0 < 256 := hlt b0 (by simp)
    have h1 : b1 < 256 := hlt b1 (by simp)
    have h2 : b2 < 256 := hlt b2 (by simp)
    rw [b64EncodeChunks] at hc
    simp only [List.mem_cons] at hc
    rcases hc with rfl | rfl | rfl | rfl | hc
    · exact ⟨b0 / 4, by omega, rfl⟩
    · exact ⟨b0 % 4 * 16 + b1 / 16, by omega, rfl⟩
    · exact ⟨b1 % 16 * 4 + b2 / 64, by omega, rfl⟩
    · exact ⟨b2 % 64, by omega, rfl⟩
    · exact ih (fun b hb => hlt b (by simp [hb])) c hc

theorem b64EncodeChunks_len_mod4 : ∀ (bytes : List ℕ),
    (b64EncodeChunks bytes).length % 4 = 0 ∨ (b64EncodeChunks bytes).length % 4 = 2 ∨
    (b64EncodeChunks bytes).length % 4 = 3 := by
  intro bytes
  induction bytes using b64EncodeChunks.induct with
  | case1 => simp [b64EncodeChunks]
  | case2 b0 => simp [b64EncodeChunks]
  | case3 b0 b1 => simp [b64EncodeChunks]
  | case4 b0 b1 b2 rest ih =>
    rw [b64EncodeChunks]
    simp only [List.length_cons]
    omega

theorem b64_chunks_roundtrip : ∀ (bytes : List ℕ), (∀ b ∈ bytes, b < 256) →
    ∃ vals, b64ValsOf (b64EncodeChunks bytes) = some vals ∧
      b64DecodeChunks vals = bytes := by
  intro bytes
  induction bytes using b64EncodeChunks.induct with
  | case1 =>
    intro _
    exact ⟨[], rfl, rfl⟩
  | case2 b0 =>
    intro hlt
    have h0 : b0 < 256 := hlt b0 (by simp)
    refine ⟨[b0 / 4, b0 % 4 * 16], ?_, ?_⟩
    · rw [b64EncodeChunks]
      simp [b64ValsOf, b64Val_b64Char (b0 / 4) (by omega),
        b64Val_b64Char (b0 % 4 * 16) (by omega)]
    · show [b0 / 4 * 4 + b0 % 4 * 16 / 16] = [b0]
      congr 1
      omega
  | case3 b0 b1 =>
    intro hlt
    have h0 : b0 < 256 := hlt b0 (by simp)
    have h1 : b1 < 256 := hlt b1 (by simp)
    refine ⟨[b0 / 4, b0 % 4 * 16 + b1 / 16, b1 % 16 * 4], ?_, ?_⟩
    · rw [b64EncodeChunks]
      simp [b64ValsOf, b64Val_b64Char (b0 / 4) (by omega),
        b64Val_b64Char (b0 % 4 * 16 + b1 / 16) (by omega),
        b64Val_b64Char (b1 % 16 * 4) (by omega)]
    · show [b0 / 4 * 4 + (b0 % 4 * 16 + b1 / 16) / 16,
        (b0 % 4 * 16 + b1 / 16) % 16 * 16 + b1 % 16 * 4 / 4] = [b0, b1]
      congr 1
      · omega
      · congr 1
        omega
  | case4 b0 b1 b2 rest ih =>
    intro hlt
    have h0 : b0 < 256 := hlt b0 (by simp)
    have h1 : b1 < 256 := hlt b1 (by simp)
    have h2 : b2 < 256 := hlt b2 (by simp)
    obtain ⟨vals, hm, hd⟩ := ih (fun b hb => hlt b (by simp [hb]))
    refine ⟨(b0 / 4) :: (b0 % 4 * 16 + b1 / 16) :: (b1 % 16 * 4 + b2 / 64) :: (b2 % 64) :: vals,
      ?_, ?_⟩
    · rw [b64EncodeChunks]
      simp [b64ValsOf, b64Val_b64Char (b0 / 4) (by omega),
        b64Val_b64Char (b0 % 4 * 16 + b1 / 16) (by omega),
        b64Val_b64Char (b1 % 16 * 4 + b2 / 64) (by omega),
        b64Val_b64Char (b2 % 64) (by omega), hm]
    · rw [b64DecodeChunks, hd]
      congr 1
      · omega
      congr 1
      · omega
      congr 1
      omega

theorem strip_pad_match (cs : List Char) (p : ℕ) (hne : ∀ c ∈ cs, c ≠ '=')
    (hp : p = 0 ∨ p = 1 ∨ p = 2) :
    (match (cs ++ List.replicate p '=').reverse with
     | '=' :: '=' :: r => r.reverse
     | '=' :: r => r.reverse
     | _ => cs ++ List.replicate p '=') = cs := by
  have hrevrev : cs.reverse.reverse = cs := List.reverse_reverse cs
  rcases hp with rfl | rfl | rfl
  · simp only [List.replicate_zero, List.append_nil]
    rcases hrev : cs.reverse with _ | ⟨d, ds⟩
    · rfl
    · have hdne : d ≠ '=' := by
        apply hne
        have : d ∈ cs.reverse := by rw [hrev]; simp
        simpa using this
      split
      · rename_i r heq
        rw [List.cons.injEq] at heq
        exact absurd heq.1 hdne
      · rename_i r heq
        rw [List.cons.injEq] at heq
        exact absurd heq.1 hdne
      · rfl
  · have hrw : (cs ++ List.replicate 1 '=').reverse = '=' :: cs.reverse := by
      simp
    rw [hrw]
    rcases hrev : cs.reverse with _ | ⟨d, ds⟩
    · have hnil : cs = [] := by simpa using congrArg List.reverse hrev
      rw [hnil]
      rfl
    · have hdne : d ≠ '=' := by
        apply hne
        have : d ∈ cs.reverse := by rw [hrev]; simp
        simpa using this
      split
      · rename_i r heq
        rw [List.cons.injEq, List.cons.injEq] at heq
        exact absurd heq.2.1 hdne
      · rename_i hno r heq
        rw [List.cons.injEq] at heq
        rw [← heq.2, ← hrev, hrevrev]
      · rename_i hno1 hno2
        exact absurd rfl (hno2 (d :: ds))
  · have hrw : (cs ++ List.replicate 2 '=').reverse = '=' :: '=' :: cs.reverse := by
      simp
    rw [hrw]
    exact hrevrev

theorem btoaChars_eq (bytes : List ℕ) :
    btoaChars bytes = b64EncodeChunks bytes ++
      List.replicate ((4 - (b64EncodeChunks bytes).length % 4) % 4) '=' := rfl

theorem atob_btoa (bytes : List ℕ) (hlt : ∀ b ∈ bytes, b < 256) :
    atobChars (btoaChars bytes) = some bytes := by
  obtain ⟨vals, hm, hd⟩ := b64_chunks_roundtrip bytes hlt
  have hmem := b64EncodeChunks_mem bytes hlt
  have hmod := b64EncodeChunks_len_mod4 bytes
  set cs := b64EncodeChunks bytes with hcs
  set p := (4 - cs.length % 4) % 4 with hp
  have hnoeq : ∀ c ∈ cs, c ≠ '=' := by
    intro c hc
    obtain ⟨v, hv, rfl⟩ := hmem c hc
    exact (b64Char_facts v hv).1
  have hfilter : (cs ++ List.replicate p '=').filter (fun c => !isAsciiWs c) =
      cs ++ List.replicate p '=' := by
    rw [List.filter_eq_self]
    intro c hc
    rcases List.mem_append.mp hc with h | h
    · obtain ⟨v, hv, rfl⟩ := hmem c h
      simp [(b64Char_facts v hv).2.1]
    · rw [List.eq_of_mem_replicate h]
      decide
  have hlen4 : (cs ++ List.replicate p '=').length % 4 = 0 := by
    simp only [List.length_append, List.length_replicate]
    omega
  have hstrip := strip_pad_match cs p hnoeq (by omega)
  rw [btoaChars_eq, ← hcs, ← hp]
  unfold atobChars
  rw [hfilter]
  simp only [if_pos hlen4, hstrip]
  rw [if_neg (by omega), hm]
  show some (b64DecodeChunks vals) = some bytes
  rw [hd]

theorem base64Url_roundtrip (s : String) :
    base64UrlDecodeUtf8 (base64UrlEncodeUtf8 s) = some s := by
  have hlt := utf8EncodeList_lt256 s.data
  set bytes := utf8EncodeList s.data with hbytes
  have hmem := b64EncodeChunks_mem bytes hlt
  set cs := b64EncodeChunks bytes with hcs
  set p := (4 - cs.length % 4) % 4 with hp
  have htokdata : (((btoaChars bytes).map urlSubChar).filter (fun c => c != '=')) =
      cs.map urlSubChar := by
    rw [btoaChars_eq, ← hcs, ← hp, List.map_append, List.map_replicate,
      show urlSubChar '=' = '=' from rfl, List.filter_append]
    have h1 : (cs.map urlSubChar).filter (fun c => c != '=') = cs.map urlSubChar := by
      rw [List.filter_eq_self]
      intro c hc
      obtain ⟨d, hd, rfl⟩ := List.mem_map.mp hc
      obtain ⟨v, hv, rfl⟩ := hmem d hd
      simpa using (b64Char_facts v hv).2.2.2
    have h2 : (List.replicate p '=').filter (fun c => c != '=') = [] := by
      rw [List.filter_eq_nil_iff]
      intro c hc
      rw [List.eq_of_mem_replicate hc]
      decide
    rw [h1, h2, List.append_nil]
  have hunsub : (cs.map urlSubChar).map urlUnsubChar = cs := by
    rw [List.map_map]
    have : ∀ c ∈ cs, (urlUnsubChar ∘ urlSubChar) c = c := by
      intro c hc
      obtain ⟨v, hv, rfl⟩ := hmem c hc
      exact (b64Char_facts v hv).2.2.1
    exact List.map_congr_left this |>.trans (List.map_id cs)
  show base64UrlDecodeUtf8 (String.mk (((btoaChars bytes).map urlSubChar).filter
    (fun c => c != '='))) = some s
  rw [htokdata]
  unfold base64UrlDecodeUtf8
  have hdata : (String.mk (cs.map urlSubChar)).data = cs.map urlSubChar := rfl
  have hlen : (String.mk (cs.map urlSubChar)).length = cs.length := by
    show (cs.map urlSubChar).length = cs.length
    rw [List.length_map]
  rw [hdata, hlen, hunsub]
  have hpadeq : 3 - (cs.length + 3) % 4 = p := by omega
  rw [hpadeq]
  rw [show cs ++ List.replicate p '=' = btoaChars bytes from (btoaChars_eq bytes).symm]
  show (match atobChars (btoaChars bytes) with
        | none => none
        | some bs => some (String.mk (utf8DecodeList bs))) = some s
  rw [atob_btoa bytes hlt]
  show some (String.mk (utf8DecodeList bytes)) = some s
  rw [hbytes, utf8_roundtrip]

/-! ## Decimal digit lemmas -/

theorem digitChar_toNat (d : ℕ) (hd : d < 10) : (digitChar d).toNat = 48 + d :=
  char_toNat_ofNat (48 + d) (Or.inl (by omega))

theorem isDigitCh_digitChar (d : ℕ) (hd : d < 10) : isDigitCh (digitChar d) = true := by
  unfold isDigitCh
  rw [digitChar_toNat d hd]
  simp only [decide_eq_true_eq, Bool.and_eq_true]
  omega

theorem digitVal_digitChar (d : ℕ) (hd : d < 10) : digitVal (digitChar d) = d := by
  unfold digitVal
  rw [digitChar_toNat d hd]
  omega

theorem digitChar_ne_zero_char (d : ℕ) (hd1 : 1 ≤ d) (hd : d < 10) : digitChar d ≠ '0' := by
  intro h
  have h2 := congrArg Char.toNat h
  rw [digitChar_toNat d hd, show ('0' : Char).toNat = 48 from rfl] at h2
  omega

theorem natDigitsRev_ne_nil (n : ℕ) : natDigitsRev n ≠ [] := by
  unfold natDigitsRev
  split <;> simp

theorem natToDigits_ne_nil (n : ℕ) : natToDigits n ≠ [] := by
  unfold natToDigits
  simpa using natDigitsRev_ne_nil n

theorem natDigitsRev_digits (n : ℕ) : ∀ c ∈ natDigitsRev n, ∃ d, d < 10 ∧ c = digitChar d := by
  induction n using Nat.strong_induction_on with
  | _ n ih =>
    intro c hc
    unfold natDigitsRev at hc
    split at hc
    · rw [List.mem_singleton] at hc
      exact ⟨n, by omega, hc⟩
    · rcases List.mem_cons.mp hc with rfl | hc
      · exact ⟨n % 10, by omega, rfl⟩
      · exact ih (n / 10) (by omega) c hc

theorem natToDigits_digits (n : ℕ) : ∀ c ∈ natToDigits n, ∃ d, d < 10 ∧ c = digitChar d := by
  intro c hc
  exact natDigitsRev_digits n c (by simpa [natToDigits] using hc)

theorem natToDigits_small (n : ℕ) (h : n < 10) : natToDigits n = [digitChar n] := by
  unfold natToDigits natDigitsRev
  rw [dif_pos h]
  rfl

theorem natToDigits_step (n : ℕ) (h : ¬ n < 10) :
    natToDigits n = natToDigits (n / 10) ++ [digitChar (n % 10)] := by
  unfold natToDigits
  conv_lhs => rw [natDigitsRev]
  rw [dif_neg h]
  rw [List.reverse_cons]

theorem digitsToNat_append (l1 l2 : List Char) :
    digitsToNat (l1 ++ l2) = l2.foldl (fun a c => a * 10 + digitVal c) (digitsToNat l1) := by
  unfold digitsToNat
  rw [List.foldl_append]

theorem digitsToNat_natToDigits (n : ℕ) : digitsToNat (natToDigits n) = n := by
  induction n using Nat.strong_induction_on with
  | _ n ih =>
    by_cases h : n < 10
    · rw [natToDigits_small n h]
      unfold digitsToNat
      simp [digitVal_digitChar n h]
    · rw [natToDigits_step n h, digitsToNat_append]
      rw [ih (n / 10) (by omega)]
      simp [digitVal_digitChar (n % 10) (by omega)]
      omega

theorem natToDigits_length_le (k : ℕ) : ∀ n, n < 10 ^ k → 1 ≤ k → (natToDigits n).length ≤ k := by
  induction k with
  | zero => intro n _ h; omega
  | succ k ih =>
    intro n hn _
    by_cases h : n < 10
    · rw [natToDigits_small n h]
      simp only [List.length_cons, List.length_nil]
      omega
    · have hk : 1 ≤ k := by
        rcases Nat.eq_zero_or_pos k with rfl | hpos
        · rw [pow_one] at hn; omega
        · exact hpos
      have hdiv : n / 10 < 10 ^ k := by
        have hx : n < 10 * 10 ^ k := by
          rw [pow_succ] at hn
          omega
        omega
      have hlen := ih (n / 10) hdiv hk
      rw [natToDigits_step n h]
      simp only [List.length_append, List.length_cons, List.length_nil]
      omega

theorem natToDigits_head_pos (n : ℕ) (hn : 1 ≤ n) :
    ∃ d, 1 ≤ d ∧ d < 10 ∧ (natToDigits n).head? = some (digitChar d) := by
  induction n using Nat.strong_induction_on with
  | _ n ih =>
    by_cases h : n < 10
    · exact ⟨n, hn, h, by rw [natToDigits_small n h]; rfl⟩
    · obtain ⟨d, hd1, hd2, hd3⟩ := ih (n / 10) (by omega) (by omega)
      refine ⟨d, hd1, hd2, ?_⟩
      rw [natToDigits_step n h]
      rcases hne : natToDigits (n / 10) with _ | ⟨c, t⟩
      · exact absurd hne (natToDigits_ne_nil _)
      · rw [hne] at hd3
        simpa using hd3

/-! ## takeWhile / dropWhile splitting -/

theorem takeWhile_append_of (p : Char → Bool) :
    ∀ (ds rest : List Char), (∀ c ∈ ds, p c = true) →
      (∀ c, rest.head? = some c → p c = false) →
      (ds ++ rest).takeWhile p = ds ∧ (ds ++ rest).dropWhile p = rest := by
  intro ds
  induction ds with
  | nil =>
    intro rest _ hr
    rcases rest with _ | ⟨c, t⟩
    · exact ⟨rfl, rfl⟩
    · simp only [List.nil_append, List.takeWhile, List.dropWhile]
      rw [hr c rfl]
      exact ⟨rfl, rfl⟩
  | cons a t ih =>
    intro rest hds hr
    have ha : p a = true := hds a (by simp)
    obtain ⟨h1, h2⟩ := ih rest (fun c hc => hds c (by simp [hc])) hr
    constructor
    · show List.takeWhile p (a :: (t ++ rest)) = a :: t
      simp only [List.takeWhile_cons, ha, if_true, h1]
    · show List.dropWhile p (a :: (t ++ rest)) = rest
      simp only [List.dropWhile_cons, ha, if_true]
      exact h2

/-! ## Number printing and parsing -/

theorem delim_not_digit {rest : List Char} (hr : DelimOk rest) :
    ∀ c, rest.head? = some c → isDigitCh c = false := by
  intro c hc
  rcases rest with _ | ⟨d, t⟩
  · simp at hc
  · rw [show c = d from by simpa using hc.symm]
    rcases hr with rfl | rfl | rfl <;> decide

theorem delim_not_numtail {rest : List Char} (hr : DelimOk rest) :
    ∀ c, rest.head? = some c → c ≠ '.' ∧ c ≠ 'e' ∧ c ≠ 'E' := by
  intro c hc
  rcases rest with _ | ⟨d, t⟩
  · simp at hc
  · rw [show c = d from by simpa using hc.symm]
    rcases hr with rfl | rfl | rfl <;> exact ⟨by decide, by decide, by decide⟩

theorem parseMaybeExp_delim (q : ℚ) (rest : List Char)
    (hr : ∀ c, rest.head? = some c → c ≠ 'e' ∧ c ≠ 'E') :
    parseMaybeExp q rest = some (q, rest) := by
  rcases rest with _ | ⟨c, t⟩
  · rfl
  · show (if c = 'e' ∨ c = 'E' then
        match parseExpPart t with
        | some (ex, r2) => some (q * (10 : ℚ) ^ ex, r2)
        | none => none
      else some (q, c :: t)) = some (q, c :: t)
    rw [if_neg (by
      rintro (rfl | rfl)
      · exact (hr _ rfl).1 rfl
      · exact (hr _ rfl).2 rfl)]

theorem parseUnsigned_digits (ds rest : List Char)
    (hne : ds ≠ []) (hdig : ∀ c ∈ ds, isDigitCh c = true)
    (hnz : ¬ (1 < ds.length ∧ ds.head? = some '0'))
    (hrest1 : ∀ c, rest.head? = some c → isDigitCh c = false)
    (hrest2 : ∀ c, rest.head? = some c → c ≠ '.' ∧ c ≠ 'e' ∧ c ≠ 'E') :
    parseUnsignedNumber (ds ++ rest) = some ((digitsToNat ds : ℚ), rest) := by
  obtain ⟨d, dt, rfl⟩ : ∃ d dt, ds = d :: dt := by
    rcases ds with _ | ⟨d, dt⟩
    · exact absurd rfl hne
    · exact ⟨d, dt, rfl⟩
  obtain ⟨htake, hdrop⟩ := takeWhile_append_of isDigitCh (d :: dt) rest hdig hrest1
  rw [List.cons_append] at htake hdrop
  have hdd : isDigitCh d = true := hdig d (by simp)
  show parseUnsignedNumber (d :: (dt ++ rest)) = _
  simp only [parseUnsignedNumber, hdd, if_true, htake, hdrop]
  rw [if_neg hnz]
  rcases rest with _ | ⟨c, t⟩
  · rfl
  · split
    · rename_i rr heq
      exfalso
      rw [List.cons.injEq] at heq
      exact (hrest2 c rfl).1 heq.1
    · exact parseMaybeExp_delim _ _ (fun c2 hc2 => ⟨(hrest2 c2 hc2).2.1, (hrest2 c2 hc2).2.2⟩)

theorem head_mem_of_head_some {l : List Char} {c : Char} (h : l.head? = some c) : c ∈ l := by
  rcases l with _ | ⟨a, t⟩
  · simp at h
  · simp only [List.head?_cons, Option.some.injEq] at h
    simp [h]

theorem head_append_of_ne_nil (l r : List Char) (h : l ≠ []) :
    (l ++ r).head? = l.head? := by
  rcases l with _ | ⟨a, t⟩
  · exact absurd rfl h
  · rfl

theorem digitsToNat_cons_zero (t : List Char) : digitsToNat ('0' :: t) = digitsToNat t := rfl

theorem digitsToNat_replicate_zero (k : ℕ) (ds : List Char) :
    digitsToNat (List.replicate k '0' ++ ds) = digitsToNat ds := by
  induction k with
  | zero => rfl
  | succ k ih =>
    rw [List.replicate_succ, List.cons_append, digitsToNat_cons_zero]
    exact ih

theorem natToDigits_isDigit (n : ℕ) : ∀ c ∈ natToDigits n, isDigitCh c = true := by
  intro c hc
  obtain ⟨d, hd, rfl⟩ := natToDigits_digits n c hc
  exact isDigitCh_digitChar d hd

theorem fracDigits_length (f e : ℕ) (hf : f < 10 ^ e) (he : 1 ≤ e) :
    (fracDigits f e).length = e := by
  have := natToDigits_length_le e f hf he
  simp only [fracDigits, List.length_append, List.length_replicate]
  omega

theorem fracDigits_isDigit (f e : ℕ) : ∀ c ∈ fracDigits f e, isDigitCh c = true := by
  intro c hc
  simp only [fracDigits, List.mem_append, List.mem_replicate] at hc
  rcases hc with ⟨_, rfl⟩ | hc
  · decide
  · exact natToDigits_isDigit f c hc

theorem fracDigits_ne_nil (f e : ℕ) : fracDigits f e ≠ [] := by
  simp only [fracDigits]
  intro h
  rcases List.append_eq_nil.mp h with ⟨_, h2⟩
  exact natToDigits_ne_nil f h2

theorem digitsToNat_fracDigits (f e : ℕ) : digitsToNat (fracDigits f e) = f := by
  simp only [fracDigits]
  rw [digitsToNat_replicate_zero, digitsToNat_natToDigits]

theorem natToDigits_no_leadzero (n : ℕ) :
    ¬ (1 < (natToDigits n).length ∧ (natToDigits n).head? = some '0') := by
  rintro ⟨hlen, hhead⟩
  by_cases h : n < 10
  · rw [natToDigits_small n h] at hlen
    simp at hlen
  · obtain ⟨d, hd1, hd2, hd3⟩ := natToDigits_head_pos n (by omega)
    rw [hd3] at hhead
    exact digitChar_ne_zero_char d hd1 hd2 (Option.some.inj hhead)

theorem parseFrac_digits (fs rest : List Char)
    (hne : fs ≠ []) (hdig : ∀ c ∈ fs, isDigitCh c = true)
    (hrest : ∀ c, rest.head? = some c → isDigitCh c = false) :
    parseFrac (fs ++ rest) = some ((digitsToNat fs : ℚ) / 10 ^ fs.length, rest) := by
  obtain ⟨a, t, rfl⟩ : ∃ a t, fs = a :: t := by
    rcases fs with _ | ⟨a, t⟩
    · exact absurd rfl hne
    · exact ⟨a, t, rfl⟩
  obtain ⟨htake, hdrop⟩ := takeWhile_append_of isDigitCh (a :: t) rest hdig hrest
  simp only [parseFrac, htake, hdrop]
  rfl

theorem parseUnsigned_digits_frac (ds fs rest : List Char)
    (hne : ds ≠ []) (hdig : ∀ c ∈ ds, isDigitCh c = true)
    (hnz : ¬ (1 < ds.length ∧ ds.head? = some '0'))
    (hfne : fs ≠ []) (hfdig : ∀ c ∈ fs, isDigitCh c = true)
    (hrest1 : ∀ c, rest.head? = some c → isDigitCh c = false)
    (hrest2 : ∀ c, rest.head? = some c → c ≠ 'e' ∧ c ≠ 'E') :
    parseUnsignedNumber (ds ++ '.' :: (fs ++ rest)) =
      some ((digitsToNat ds : ℚ) + (digitsToNat fs : ℚ) / 10 ^ fs.length, rest) := by
  obtain ⟨d, dt, rfl⟩ : ∃ d dt, ds = d :: dt := by
    rcases ds with _ | ⟨d, dt⟩
    · exact absurd rfl hne
    · exact ⟨d, dt, rfl⟩
  obtain ⟨htake, hdrop⟩ := takeWhile_append_of isDigitCh (d :: dt) ('.' :: (fs ++ rest)) hdig
    (by
      intro c hc
      rw [show c = '.' from by simpa using hc.symm]
      decide)
  rw [List.cons_append] at htake hdrop
  have hdd : isDigitCh d = true := hdig d (by simp)
  show parseUnsignedNumber (d :: (dt ++ '.' :: (fs ++ rest))) = _
  simp only [parseUnsignedNumber, hdd, if_true, htake, hdrop]
  rw [if_neg hnz]
  show (match parseFrac (fs ++ rest) with
    | some (f, r2) => parseMaybeExp ((digitsToNat (d :: dt) : ℚ) + f) r2
    | none => none) = _
  rw [parseFrac_digits fs rest hfne hfdig hrest1]
  exact parseMaybeExp_delim _ _ hrest2

theorem findDecExp_den (q : ℚ) (h : ∃ m : ℤ, ∃ e : ℕ, e ≤ 6 ∧ q = (m : ℚ) / 10 ^ e) :
    (q * 10 ^ findDecExp q).den = 1 := by
  obtain ⟨m, e, he, hq⟩ := h
  have hp : ((q * 10 ^ e).den == 1) = true := by
    rw [hq, div_mul_cancel₀]
    · simp
    · positivity
  have hmem : ∃ x ∈ List.range 7, ((q * 10 ^ x).den == 1) = true :=
    ⟨e, by simp only [List.mem_range]; omega, hp⟩
  have hsome : (List.find? (fun x => (q * 10 ^ x).den == 1) (List.range 7)).isSome := by
    rw [List.find?_isSome]
    exact hmem
  obtain ⟨a, ha⟩ := Option.isSome_iff_exists.mp hsome
  have hpa := List.find?_some ha
  have : findDecExp q = a := by
    simp only [findDecExp, ha, Option.getD_some]
  rw [this]
  simpa using hpa

theorem num_toNat_cast_eq (q : ℚ) (E : ℕ) (hq : 0 ≤ q) (hden : (q * 10 ^ E).den = 1) :
    ((q * 10 ^ E).num.toNat : ℚ) = q * 10 ^ E := by
  have h0 : 0 ≤ q * 10 ^ E := by positivity
  have hnum : 0 ≤ (q * 10 ^ E).num := Rat.num_nonneg.mpr h0
  have h2 : ((q * 10 ^ E).num : ℚ) = q * 10 ^ E := by
    have h3 := Rat.num_div_den (q * 10 ^ E)
    rw [hden] at h3
    simpa using h3
  rw [← h2]
  exact_mod_cast congrArg (fun z : ℤ => (z : ℚ)) (Int.toNat_of_nonneg hnum)

theorem split_div_mod_q (m E : ℕ) :
    ((m / 10 ^ E : ℕ) : ℚ) + ((m % 10 ^ E : ℕ) : ℚ) / 10 ^ E = (m : ℚ) / 10 ^ E := by
  have h := Nat.div_add_mod m (10 ^ E)
  have h2 : ((10 ^ E * (m / 10 ^ E) + m % 10 ^ E : ℕ) : ℚ) = (m : ℚ) := by rw [h]
  push_cast at h2
  have hE : (10 : ℚ) ^ E ≠ 0 := by positivity
  field_simp
  linarith [h2]

theorem parse_fixed_form (E m : ℕ) (q : ℚ) (rest : List Char)
    (hq : q = (m : ℚ) / 10 ^ E)
    (hrest1 : ∀ c, rest.head? = some c → isDigitCh c = false)
    (hrest2 : ∀ c, rest.head? = some c → c ≠ '.' ∧ c ≠ 'e' ∧ c ≠ 'E') :
    parseUnsignedNumber ((if E = 0 then natToDigits m
      else natToDigits (m / 10 ^ E) ++ '.' :: fracDigits (m % 10 ^ E) E) ++ rest)
      = some (q, rest) := by
  by_cases he0 : E = 0
  · rw [if_pos he0]
    rw [parseUnsigned_digits (natToDigits m) rest (natToDigits_ne_nil m)
      (natToDigits_isDigit m) (natToDigits_no_leadzero m) hrest1 hrest2]
    rw [digitsToNat_natToDigits]
    subst he0
    rw [hq]
    norm_num
  · rw [if_neg he0]
    have hE1 : 1 ≤ E := by omega
    have hpow : 0 < 10 ^ E := by positivity
    have hmod : m % 10 ^ E < 10 ^ E := Nat.mod_lt m hpow
    rw [List.append_assoc, List.cons_append]
    rw [parseUnsigned_digits_frac (natToDigits (m / 10 ^ E)) (fracDigits (m % 10 ^ E) E) rest
      (natToDigits_ne_nil _) (natToDigits_isDigit _) (natToDigits_no_leadzero _)
      (fracDigits_ne_nil _ _) (fracDigits_isDigit _ _) hrest1
      (fun c hc => ⟨(hrest2 c hc).2.1, (hrest2 c hc).2.2⟩)]
    rw [digitsToNat_natToDigits, digitsToNat_fracDigits,
      fracDigits_length (m % 10 ^ E) E hmod hE1, hq, split_div_mod_q]

theorem printNumNonneg_parse (q : ℚ) (rest : List Char) (hq : 0 ≤ q)
    (hden : (q * 10 ^ findDecExp q).den = 1)
    (hrest1 : ∀ c, rest.head? = some c → isDigitCh c = false)
    (hrest2 : ∀ c, rest.head? = some c → c ≠ '.' ∧ c ≠ 'e' ∧ c ≠ 'E') :
    parseUnsignedNumber (printNumNonneg q ++ rest) = some (q, rest) := by
  have hcast := num_toNat_cast_eq q (findDecExp q) hq hden
  have hqeq : q = (((q * 10 ^ findDecExp q).num.toNat : ℕ) : ℚ) / 10 ^ findDecExp q := by
    rw [hcast]
    field_simp
  show parseUnsignedNumber ((if findDecExp q = 0
      then natToDigits (q * 10 ^ findDecExp q).num.toNat
      else natToDigits ((q * 10 ^ findDecExp q).num.toNat / 10 ^ findDecExp q) ++
        '.' :: fracDigits ((q * 10 ^ findDecExp q).num.toNat % 10 ^ findDecExp q)
          (findDecExp q)) ++ rest) = some (q, rest)
  exact parse_fixed_form (findDecExp q) (q * 10 ^ findDecExp q).num.toNat q rest hqeq
    hrest1 hrest2

theorem printNumNonneg_ne_nil (q : ℚ) : printNumNonneg q ≠ [] := by
  simp only [printNumNonneg]
  split
  · exact natToDigits_ne_nil _
  · intro h
    rcases List.append_eq_nil.mp h with ⟨h1, _⟩
    exact natToDigits_ne_nil _ h1

theorem printNumNonneg_head_digit (q : ℚ) :
    ∀ c, (printNumNonneg q).head? = some c → isDigitCh c = true := by
  intro c hc
  simp only [printNumNonneg] at hc
  split at hc
  · exact natToDigits_isDigit _ c (head_mem_of_head_some hc)
  · rw [head_append_of_ne_nil _ _ (natToDigits_ne_nil _)] at hc
    exact natToDigits_isDigit _ c (head_mem_of_head_some hc)

theorem numOk_split (q : ℚ) (h : NumOk q) :
    ∃ m : ℤ, ∃ e : ℕ, e ≤ 6 ∧ q = (m : ℚ) / 10 ^ e := h.1

theorem printNum_parse (q : ℚ) (rest : List Char) (hok : NumOk q)
    (hrest1 : ∀ c, rest.head? = some c → isDigitCh c = false)
    (hrest2 : ∀ c, rest.head? = some c → c ≠ '.' ∧ c ≠ 'e' ∧ c ≠ 'E') :
    parseNumber (printNum q ++ rest) = some (q, rest) := by
  by_cases hq : q < 0
  · have hpr : printNum q = '-' :: printNumNonneg (-q) := by
      simp only [printNum, hq, if_true]
    have hden : (-q * 10 ^ findDecExp (-q)).den = 1 := by
      apply findDecExp_den
      obtain ⟨m, e, he, hqe⟩ := hok.1
      exact ⟨-m, e, he, by rw [hqe]; push_cast; ring⟩
    rw [hpr]
    show (match parseUnsignedNumber (printNumNonneg (-q) ++ rest) with
      | some (u, r2) => some (-u, r2)
      | none => none) = some (q, rest)
    rw [printNumNonneg_parse (-q) rest (by linarith) hden hrest1 hrest2]
    simp
  · have hq0 : 0 ≤ q := by linarith
    have hpr : printNum q = printNumNonneg q := by
      simp only [printNum, hq, if_false]
    have hden : (q * 10 ^ findDecExp q).den = 1 := findDecExp_den q hok.1
    rw [hpr]
    have hmain := printNumNonneg_parse q rest hq0 hden hrest1 hrest2
    rcases hcons : printNumNonneg q with _ | ⟨c, t⟩
    · exact absurd hcons (printNumNonneg_ne_nil q)
    · have hcd : isDigitCh c = true := by
        apply printNumNonneg_head_digit q c
        rw [hcons]
        rfl
      rw [hcons] at hmain
      show parseNumber (c :: (t ++ rest)) = some (q, rest)
      have hcne : c ≠ '-' := by
        intro h
        rw [h] at hcd
        exact absurd hcd (by decide)
      unfold parseNumber
      split
      · rename_i r heq
        rw [List.cons.injEq] at heq
        exact absurd heq.1 hcne
      · exact hmain

theorem parseStringStep_u (n : ℕ) (h : n < 32) (tail : List Char) :
    parseStringStep '\\'
      ('u' :: '0' :: '0' :: hexDigitChar (n / 16) :: hexDigitChar (n % 16) :: tail)
      = some (some (Char.ofNat n), 5) := by
  interval_cases n <;> rfl

theorem escape_step (c : Char) (tail : List Char) :
    ∃ d r k, escapeChar c ++ tail = d :: r ∧
      parseStringStep d r = some (some c, k) ∧ r.drop k = tail := by
  by_cases h34 : c.toNat = 34
  · have hc : c = '"' := by
      have h := Char.ofNat_toNat c
      rw [h34] at h
      exact h.symm
    subst hc
    exact ⟨'\\', '"' :: tail, 1, rfl, rfl, rfl⟩
  · by_cases h92 : c.toNat = 92
    · have hc : c = '\\' := by
        have h := Char.ofNat_toNat c
        rw [h92] at h
        exact h.symm
      subst hc
      exact ⟨'\\', '\\' :: tail, 1, rfl, rfl, rfl⟩
    · by_cases h8 : c.toNat = 8
      · have hc : c = Char.ofNat 8 := by
          have h := Char.ofNat_toNat c
          rw [h8] at h
          exact h.symm
        subst hc
        exact ⟨'\\', 'b' :: tail, 1, rfl, rfl, rfl⟩
      · by_cases h9 : c.toNat = 9
        · have hc : c = Char.ofNat 9 := by
            have h := Char.ofNat_toNat c
            rw [h9] at h
            exact h.symm
          subst hc
          exact ⟨'\\', 't' :: tail, 1, rfl, rfl, rfl⟩
        · by_cases h10 : c.toNat = 10
          · have hc : c = Char.ofNat 10 := by
              have h := Char.ofNat_toNat c
              rw [h10] at h
              exact h.symm
            subst hc
            exact ⟨'\\', 'n' :: tail, 1, rfl, rfl, rfl⟩
          · by_cases h12 : c.toNat = 12
            · have hc : c = Char.ofNat 12 := by
                have h := Char.ofNat_toNat c
                rw [h12] at h
                exact h.symm
              subst hc
              exact ⟨'\\', 'f' :: tail, 1, rfl, rfl, rfl⟩
            · by_cases h13 : c.toNat = 13
              · have hc : c = Char.ofNat 13 := by
                  have h := Char.ofNat_toNat c
                  rw [h13] at h
                  exact h.symm
                subst hc
                exact ⟨'\\', 'r' :: tail, 1, rfl, rfl, rfl⟩
              · by_cases h32 : c.toNat < 32
                · refine ⟨'\\', 'u' :: '0' :: '0' :: hexDigitChar (c.toNat / 16) ::
                    hexDigitChar (c.toNat % 16) :: tail, 5, ?_, ?_, rfl⟩
                  · simp [escapeChar, h34, h92, h8, h9, h10, h12, h13, h32]
                  · rw [parseStringStep_u c.toNat h32 tail, Char.ofNat_toNat]
                · refine ⟨c, tail, 0, ?_, ?_, rfl⟩
                  · simp [escapeChar, h34, h92, h8, h9, h10, h12, h13, h32]
                  · have hq : c ≠ '"' := fun h => h34 (by rw [h]; rfl)
                    have hb : c ≠ '\\' := fun h => h92 (by rw [h]; rfl)
                    simp [parseStringStep, hq, hb, h32]

theorem parseStringBody_cons (c : Char) (t : List Char) :
    parseStringBody (c :: t) =
      match parseStringStep c t with
      | none => none
      | some (none, k) => some ([], t.drop k)
      | some (some ch, k) =>
        match parseStringBody (t.drop k) with
        | some (cs, r2) => some (ch :: cs, r2)
        | none => none := by
  rw [parseStringBody]

theorem parseStringBody_escape (cs rest : List Char) :
    parseStringBody (escapeList cs ++ '"' :: rest) = some (cs, rest) := by
  induction cs with
  | nil =>
    show parseStringBody ('"' :: rest) = some ([], rest)
    rw [parseStringBody_cons]
    rfl
  | cons c cs ih =>
    obtain ⟨d, r, k, heq, hstep, hdrop⟩ := escape_step c (escapeList cs ++ '"' :: rest)
    show parseStringBody (escapeChar c ++ escapeList cs ++ '"' :: rest) = _
    rw [List.append_assoc, heq, parseStringBody_cons, hstep]
    show (match parseStringBody (List.drop k r) with
      | some (cs2, r2) => some (c :: cs2, r2)
      | none => none) = some (c :: cs, rest)
    rw [hdrop, ih]

theorem vsize_pos (v : Value) : 0 < vsize v := by
  cases v <;> simp [vsize]

theorem skipWs_not_ws (c : Char) (t : List Char) (h : isWsCh c = false) :
    skipWs (c :: t) = c :: t := by
  simp [skipWs, h]

theorem digit_facts (c : Char) (h : isDigitCh c = true) :
    isWsCh c = false ∧ c ≠ ']' ∧ c ≠ rbraceChar := by
  refine ⟨?_, fun hc => by rw [hc] at h; exact absurd h (by decide),
    fun hc => by rw [hc] at h; exact absurd h (by decide)⟩
  simp only [isDigitCh, Bool.and_eq_true, decide_eq_true_eq] at h
  simp [isWsCh]
  omega

theorem printValue_head (v : Value) :
    ∃ c t, printValue v = c :: t ∧ isWsCh c = false ∧ c ≠ ']' ∧ c ≠ rbraceChar := by
  cases v with
  | vNull => exact ⟨'n', _, rfl, by decide, by decide, by decide⟩
  | bool b =>
    cases b
    · exact ⟨'f', _, rfl, by decide, by decide, by decide⟩
    · exact ⟨'t', _, rfl, by decide, by decide, by decide⟩
  | num q =>
    by_cases hq : q < 0
    · refine ⟨'-', printNumNonneg (-q), ?_, by decide, by decide, by decide⟩
      show printNum q = '-' :: printNumNonneg (-q)
      simp [printNum, hq]
    · rcases hc : printNumNonneg q with _ | ⟨c, t⟩
      · exact absurd hc (printNumNonneg_ne_nil q)
      · have hd : isDigitCh c = true := printNumNonneg_head_digit q c (by rw [hc]; rfl)
        obtain ⟨h1, h2, h3⟩ := digit_facts c hd
        refine ⟨c, t, ?_, h1, h2, h3⟩
        show printNum q = c :: t
        simp [printNum, hq, hc]
  | str s => exact ⟨'"', _, rfl, by decide, by decide, by decide⟩
  | arr l => exact ⟨'[', _, rfl, by decide, by decide, by decide⟩
  | obj kvs => exact ⟨lbraceChar, _, rfl, by decide, by decide, by decide⟩

theorem parseValue_cons (m : ℕ) (c : Char) (t : List Char) (hws : isWsCh c = false) :
    parseValue (m + 1) (c :: t) =
      (if c = 'n' then
        match t with
        | 'u' :: 'l' :: 'l' :: rr => some (Value.vNull, rr)
        | _ => none
      else if c = 't' then
        match t with
        | 'r' :: 'u' :: 'e' :: rr => some (Value.bool true, rr)
        | _ => none
      else if c = 'f' then
        match t with
        | 'a' :: 'l' :: 's' :: 'e' :: rr => some (Value.bool false, rr)
        | _ => none
      else if c = '"' then
        match parseStringBody t with
        | some (cs, rr) => some (Value.str (String.mk cs), rr)
        | none => none
      else if c = '[' then
        match skipWs t with
        | ']' :: rr => some (Value.arr [], rr)
        | r2 =>
          match parseElemsF m r2 with
          | some (l, rr) => some (Value.arr l, rr)
          | none => none
      else if c = lbraceChar then
        match skipWs t with
        | c2 :: rr =>
          if c2 = rbraceChar then some (Value.obj [], rr)
          else
            match parseMembersF m (c2 :: rr) with
            | some (kvs, r3) => some (Value.obj kvs, r3)
            | none => none
        | [] => none
      else if c = '-' ∨ isDigitCh c then
        match parseNumber (c :: t) with
        | some (q, rr) => some (Value.num q, rr)
        | none => none
      else none) := by
  show (match skipWs (c :: t) with
    | [] => none
    | c :: r =>
      if c = 'n' then
        match r with
        | 'u' :: 'l' :: 'l' :: rr => some (Value.vNull, rr)
        | _ => none
      else if c = 't' then
        match r with
        | 'r' :: 'u' :: 'e' :: rr => some (Value.bool true, rr)
        | _ => none
      else if c = 'f' then
        match r with
        | 'a' :: 'l' :: 's' :: 'e' :: rr => some (Value.bool false, rr)
        | _ => none
      else if c = '"' then
        match parseStringBody r with
        | some (cs, rr) => some (Value.str (String.mk cs), rr)
        | none => none
      else if c = '[' then
        match skipWs r with
        | ']' :: rr => some (Value.arr [], rr)
        | r2 =>
          match parseElemsF m r2 with
          | some (l, rr) => some (Value.arr l, rr)
          | none => none
      else if c = lbraceChar then
        match skipWs r with
        | c2 :: rr =>
          if c2 = rbraceChar then some (Value.obj [], rr)
          else
            match parseMembersF m (c2 :: rr) with
            | some (kvs, r3) => some (Value.obj kvs, r3)
            | none => none
        | [] => none
      else if c = '-' ∨ isDigitCh c then
        match parseNumber (c :: r) with
        | some (q, rr) => some (Value.num q, rr)
        | none => none
      else none) = _
  rw [skipWs_not_ws c t hws]

theorem printable_num (q : ℚ) (h : Printable (Value.num q)) : NumOk q := by
  cases h
  assumption

theorem printable_arr_mem (l : List Value) (h : Printable (Value.arr l)) :
    ∀ v ∈ l, Printable v := by
  cases h
  assumption

theorem printable_obj_mem (kvs : List (String × Value)) (h : Printable (Value.obj kvs)) :
    ∀ kv ∈ kvs, Printable kv.2 := by
  cases h
  assumption

theorem printNum_head (q : ℚ) :
    ∃ c t, printNum q = c :: t ∧ (c = '-' ∨ isDigitCh c = true) := by
  by_cases hq : q < 0
  · exact ⟨'-', printNumNonneg (-q), by simp [printNum, hq], Or.inl rfl⟩
  · rcases hc : printNumNonneg q with _ | ⟨c, t⟩
    · exact absurd hc (printNumNonneg_ne_nil q)
    · exact ⟨c, t, by simp [printNum, hq, hc],
        Or.inr (printNumNonneg_head_digit q c (by rw [hc]; rfl))⟩

theorem numHead_facts (c : Char) (h : c = '-' ∨ isDigitCh c = true) :
    isWsCh c = false ∧ c ≠ 'n' ∧ c ≠ 't' ∧ c ≠ 'f' ∧ c ≠ '"' ∧ c ≠ '[' ∧ c ≠ lbraceChar := by
  rcases h with rfl | h
  · exact ⟨by decide, by decide, by decide, by decide, by decide, by decide, by decide⟩
  · exact ⟨(digit_facts c h).1,
      fun e => by rw [e] at h; exact absurd h (by decide),
      fun e => by rw [e] at h; exact absurd h (by decide),
      fun e => by rw [e] at h; exact absurd h (by decide),
      fun e => by rw [e] at h; exact absurd h (by decide),
      fun e => by rw [e] at h; exact absurd h (by decide),
      fun e => by rw [e] at h; exact absurd h (by decide)⟩

theorem parseStringBody_escape2 (cs rest : List Char) :
    parseStringBody (escapeList cs ++ (['"'] ++ rest)) = some (cs, rest) :=
  parseStringBody_escape cs rest

theorem delimOk_elemsTail (t : List Value) (rest : List Char) :
    DelimOk (printElemsTail t ++ ']' :: rest) := by
  cases t with
  | nil => exact Or.inr (Or.inl rfl)
  | cons v t2 => exact Or.inl rfl

theorem delimOk_membersTail (t : List (String × Value)) (rest : List Char) :
    DelimOk (printMembersTail t ++ rbraceChar :: rest) := by
  cases t with
  | nil => exact Or.inr (Or.inr rfl)
  | cons kv t2 =>
    obtain ⟨k, v⟩ := kv
    exact Or.inl rfl

theorem parse_print (n : ℕ) :
    (∀ v rest, Printable v → vsize v ≤ n → DelimOk rest →
      parseValue n (printValue v ++ rest) = some (v, rest)) ∧
    (∀ v t rest, Printable v → (∀ w ∈ t, Printable w) → lsizeV (v :: t) ≤ n → DelimOk rest →
      parseElemsF n (printValue v ++ (printElemsTail t ++ ']' :: rest)) =
        some (v :: t, rest)) ∧
    (∀ k v t rest, Printable v → (∀ kv ∈ t, Printable kv.2) → msizeV ((k, v) :: t) ≤ n →
      DelimOk rest →
      parseMembersF n (printString k ++ (':' :: (printValue v ++
        (printMembersTail t ++ rbraceChar :: rest)))) = some ((k, v) :: t, rest)) := by
  induction n with
  | zero =>
    refine ⟨?_, ?_, ?_⟩
    · intro v rest _ hs _
      have := vsize_pos v
      omega
    · intro v t rest _ _ hs _
      simp only [lsizeV] at hs
      omega
    · intro k v t rest _ _ hs _
      simp only [msizeV] at hs
      omega
  | succ m ih =>
    obtain ⟨ihV, ihE, ihM⟩ := ih
    refine ⟨?_, ?_, ?_⟩
    · intro v rest hp hs hd
      cases v with
      | vNull => rfl
      | bool b => cases b <;> rfl
      | num q =>
        have hnum : NumOk q := printable_num q hp
        obtain ⟨c, t, hpr, hcd⟩ := printNum_head q
        obtain ⟨hws, hn, ht', hf, hq', hbk, hbr⟩ := numHead_facts c hcd
        show parseValue (m + 1) (printNum q ++ rest) = some (Value.num q, rest)
        rw [hpr, List.cons_append, parseValue_cons m c _ hws,
          if_neg hn, if_neg ht', if_neg hf, if_neg hq', if_neg hbk, if_neg hbr,
          if_pos hcd]
        show (match parseNumber (c :: (t ++ rest)) with
          | some (q2, rr) => some (Value.num q2, rr)
          | none => none) = some (Value.num q, rest)
        rw [← List.cons_append, ← hpr,
          printNum_parse q rest hnum (delim_not_digit hd) (delim_not_numtail hd)]
      | str s =>
        show (match parseStringBody ((escapeList s.data ++ ['"']) ++ rest) with
          | some (cs, rr) => some (Value.str (String.mk cs), rr)
          | none => none) = some (Value.str s, rest)
        rw [List.append_assoc, parseStringBody_escape2 s.data rest]
      | arr l =>
        cases l with
        | nil => rfl
        | cons v t =>
          have hmem := printable_arr_mem _ hp
          have hsz : lsizeV (v :: t) ≤ m := by
            simp only [vsize] at hs
            omega
          obtain ⟨c0, t0, hc0, hws0, hne0, _⟩ := printValue_head v
          have hinput : printValue (Value.arr (v :: t)) ++ rest =
              '[' :: (printValue v ++ (printElemsTail t ++ ']' :: rest)) := by
            show '[' :: ((printValue v ++ printElemsTail t ++ [']']) ++ rest) = _
            simp [List.append_assoc]
          rw [hinput]
          show (match skipWs (printValue v ++ (printElemsTail t ++ ']' :: rest)) with
            | ']' :: rr => some (Value.arr [], rr)
            | r2 =>
              match parseElemsF m r2 with
              | some (l2, rr) => some (Value.arr l2, rr)
              | none => none) = some (Value.arr (v :: t), rest)
          rw [hc0, List.cons_append, skipWs_not_ws c0 _ hws0]
          split
          · rename_i rr heq
            rw [List.cons.injEq] at heq
            exact absurd heq.1 hne0
          · rw [← List.cons_append, ← hc0,
              ihE v t rest (hmem v (by simp)) (fun w hw => hmem w (by simp [hw])) hsz hd]
      | obj kvs =>
        cases kvs with
        | nil => rfl
        | cons kv t =>
          obtain ⟨k, v⟩ := kv
          have hmem := printable_obj_mem _ hp
          have hsz : msizeV ((k, v) :: t) ≤ m := by
            simp only [vsize] at hs
            omega
          have hinput : printValue (Value.obj ((k, v) :: t)) ++ rest =
              lbraceChar :: (printString k ++ (':' :: (printValue v ++
                (printMembersTail t ++ rbraceChar :: rest)))) := by
            show lbraceChar :: ((printString k ++ ':' :: printValue v ++ printMembersTail t
              ++ [rbraceChar]) ++ rest) = _
            simp [List.append_assoc]
          rw [hinput]
          show (match parseMembersF m (printString k ++ (':' :: (printValue v ++
                (printMembersTail t ++ rbraceChar :: rest)))) with
            | some (kvs2, r3) => some (Value.obj kvs2, r3)
            | none => none) = some (Value.obj ((k, v) :: t), rest)
          rw [ihM k v t rest (hmem (k, v) (by simp)) (fun kv2 hkv => hmem kv2 (by simp [hkv]))
            hsz hd]
    · intro v t rest hpv hpt hsz hd
      show (match parseValue m (printValue v ++ (printElemsTail t ++ ']' :: rest)) with
        | none => none
        | some (v2, r) =>
          match skipWs r with
          | ',' :: r2 =>
            match parseElemsF m r2 with
            | some (l2, rr) => some (v2 :: l2, rr)
            | none => none
          | ']' :: r2 => some ([v2], r2)
          | _ => none) = some (v :: t, rest)
      rw [ihV v _ hpv (by simp only [lsizeV] at hsz; omega) (delimOk_elemsTail t rest)]
      cases t with
      | nil => rfl
      | cons w t2 =>
        show (match parseElemsF m ((printValue w ++ printElemsTail t2) ++ ']' :: rest) with
          | some (l2, rr) => some (v :: l2, rr)
          | none => none) = some (v :: w :: t2, rest)
        rw [List.append_assoc,
          ihE w t2 rest (hpt w (by simp)) (fun x hx => hpt x (by simp [hx]))
            (by simp only [lsizeV] at hsz ⊢; omega) hd]
    · intro k v t rest hpv hpt hsz hd
      show (match parseStringBody ((escapeList k.data ++ ['"']) ++ (':' :: (printValue v ++
            (printMembersTail t ++ rbraceChar :: rest)))) with
        | none => none
        | some (kcs, r1) =>
          match skipWs r1 with
          | ':' :: r2 =>
            match parseValue m r2 with
            | none => none
            | some (v2, r3) =>
              match skipWs r3 with
              | c :: r4 =>
                if c = ',' then
                  match parseMembersF m r4 with
                  | some (kvs2, rr) => some ((String.mk kcs, v2) :: kvs2, rr)
                  | none => none
                else if c = rbraceChar then some ([(String.mk kcs, v2)], r4)
                else none
              | [] => none
          | _ => none) = some ((k, v) :: t, rest)
      rw [List.append_assoc,
        parseStringBody_escape2 k.data (':' :: (printValue v ++
          (printMembersTail t ++ rbraceChar :: rest)))]
      show (match parseValue m (printValue v ++ (printMembersTail t ++ rbraceChar :: rest)) with
        | none => none
        | some (v2, r3) =>
          match skipWs r3 with
          | c :: r4 =>
            if c = ',' then
              match parseMembersF m r4 with
              | some (kvs2, rr) => some ((String.mk k.data, v2) :: kvs2, rr)
              | none => none
            else if c = rbraceChar then some ([(String.mk k.data, v2)], r4)
            else none
          | [] => none) = some ((k, v) :: t, rest)
      rw [ihV v _ hpv (by simp only [msizeV] at hsz; omega) (delimOk_membersTail t rest)]
      cases t with
      | nil => rfl
      | cons kv2 t2 =>
        obtain ⟨k2, w⟩ := kv2
        show (match parseMembersF m ((printString k2 ++ ':' :: printValue w ++
              printMembersTail t2) ++ rbraceChar :: rest) with
          | some (kvs2, rr) => some ((String.mk k.data, v) :: kvs2, rr)
          | none => none) = some ((k, v) :: (k2, w) :: t2, rest)
        have hre : (printString k2 ++ ':' :: printValue w ++ printMembersTail t2) ++
            rbraceChar :: rest = printString k2 ++ (':' :: (printValue w ++
            (printMembersTail t2 ++ rbraceChar :: rest))) := by
          simp [List.append_assoc]
        rw [hre, ihM k2 w t2 rest (hpt (k2, w) (by simp))
          (fun x hx => hpt x (by simp [hx])) (by simp only [msizeV] at hsz ⊢; omega) hd]

theorem vsize_mem_le_lsize (l : List Value) : ∀ w ∈ l, vsize w ≤ lsizeV l := by
  induction l with
  | nil =>
    intro w hw
    simp at hw
  | cons a t ih =>
    intro w hw
    rcases List.mem_cons.mp hw with rfl | hw2
    · simp only [lsizeV]
      omega
    · have := ih w hw2
      simp only [lsizeV]
      omega

theorem vsize_mem_le_msize (kvs : List (String × Value)) :
    ∀ kv ∈ kvs, vsize kv.2 ≤ msizeV kvs := by
  induction kvs with
  | nil =>
    intro kv hkv
    simp at hkv
  | cons a t ih =>
    obtain ⟨k, v⟩ := a
    intro kv hkv
    rcases List.mem_cons.mp hkv with rfl | h2
    · simp only [msizeV]
      omega
    · have := ih kv h2
      simp only [msizeV]
      omega

theorem printString_len (s : String) : 2 ≤ (printString s).length := by
  simp [printString]

theorem printValue_len_pos (v : Value) : 1 ≤ (printValue v).length := by
  obtain ⟨c, t, hc, _⟩ := printValue_head v
  rw [hc]
  simp

theorem lsize_le_tail_len (l : List Value)
    (h : ∀ w ∈ l, vsize w ≤ (printValue w).length) :
    lsizeV l ≤ (printElemsTail l).length := by
  induction l with
  | nil => simp [lsizeV]
  | cons w t ih =>
    have hw := h w (by simp)
    have ht := ih (fun x hx => h x (by simp [hx]))
    show lsizeV (w :: t) ≤ (',' :: (printValue w ++ printElemsTail t)).length
    simp only [lsizeV, List.length_cons, List.length_append]
    omega

theorem msize_le_tail_len (kvs : List (String × Value))
    (h : ∀ kv ∈ kvs, vsize kv.2 ≤ (printValue kv.2).length) :
    msizeV kvs ≤ (printMembersTail kvs).length := by
  induction kvs with
  | nil => simp [msizeV]
  | cons a t ih =>
    obtain ⟨k, v⟩ := a
    have hv : vsize v ≤ (printValue v).length := h (k, v) (by simp)
    have ht := ih (fun x hx => h x (by simp [hx]))
    have hk := printString_len k
    show msizeV ((k, v) :: t) ≤
      (',' :: (printString k ++ ':' :: printValue v ++ printMembersTail t)).length
    simp only [msizeV, List.length_cons, List.length_append]
    omega

theorem vsize_le_print_len (n : ℕ) :
    ∀ v, vsize v ≤ n → vsize v ≤ (printValue v).length := by
  induction n with
  | zero =>
    intro v hv
    have := vsize_pos v
    omega
  | succ m ih =>
    intro v hv
    cases v with
    | vNull =>
      simp only [vsize]
      exact printValue_len_pos _
    | bool b =>
      simp only [vsize]
      exact printValue_len_pos _
    | num q =>
      simp only [vsize]
      exact printValue_len_pos _
    | str s =>
      simp only [vsize]
      exact printValue_len_pos _
    | arr l =>
      cases l with
      | nil =>
        show vsize (Value.arr []) ≤ ('[' :: [']']).length
        simp [vsize, lsizeV]
      | cons w t =>
        have hsub : ∀ x ∈ w :: t, vsize x ≤ (printValue x).length := by
          intro x hx
          have h1 := vsize_mem_le_lsize (w :: t) x hx
          apply ih
          simp only [vsize] at hv
          omega
        have htail := lsize_le_tail_len t (fun x hx => hsub x (by simp [hx]))
        have hw := hsub w (by simp)
        show vsize (Value.arr (w :: t)) ≤
          ('[' :: ((printValue w ++ printElemsTail t) ++ [']'])).length
        simp only [vsize, lsizeV, List.length_cons, List.length_append]
        omega
    | obj kvs =>
      cases kvs with
      | nil =>
        show vsize (Value.obj []) ≤ (lbraceChar :: [rbraceChar]).length
        simp [vsize, msizeV]
      | cons a t =>
        obtain ⟨k, v⟩ := a
        have hsub : ∀ x ∈ (k, v) :: t, vsize x.2 ≤ (printValue x.2).length := by
          intro x hx
          have h1 := vsize_mem_le_msize ((k, v) :: t) x hx
          apply ih
          simp only [vsize] at hv
          omega
        have htail := msize_le_tail_len t (fun x hx => hsub x (by simp [hx]))
        have hval : vsize v ≤ (printValue v).length := hsub (k, v) (by simp)
        have hk := printString_len k
        show vsize (Value.obj ((k, v) :: t)) ≤
          (lbraceChar :: ((printString k ++ ':' :: printValue v ++ printMembersTail t) ++
            [rbraceChar])).length
        simp only [vsize, msizeV, List.length_cons, List.length_append]
        omega

theorem vsize_le_print (v : Value) : vsize v ≤ (printValue v).length :=
  vsize_le_print_len (vsize v) v le_rfl

theorem jsonParse_stringify (v : Value) (hp : Printable v) :
    jsonParse (jsonStringify v) = some v := by
  have hlen : vsize v ≤ (printValue v).length + 1 :=
    le_trans (vsize_le_print v) (by omega)
  have h := (parse_print ((printValue v).length + 1)).1 v [] hp hlen trivial
  rw [List.append_nil] at h
  show (match parseValue ((printValue v).length + 1) (printValue v) with
    | some (v2, rest) => if skipWs rest = [] then some v2 else none
    | none => none) = some v
  rw [h]
  rfl

theorem printable_itemToValue (it : LineItem) (hq : NumOk it.quantity)
    (hu : NumOk it.unitPrice) : Printable (itemToValue it) := by
  refine Printable.pobj _ ?_
  intro kv hkv
  simp only [itemToValue, List.mem_cons, List.not_mem_nil, or_false] at hkv
  rcases hkv with rfl | rfl | rfl | rfl
  · exact Printable.pstr _
  · exact Printable.pstr _
  · exact Printable.pnum _ hq
  · exact Printable.pnum _ hu

theorem printable_invToValue (I : Invoice) (h : ValidInvoice I) :
    Printable (invToValue I) := by
  obtain ⟨_, htax, hitems⟩ := h
  refine Printable.pobj _ ?_
  intro kv hkv
  simp only [invToValue, List.mem_cons, List.not_mem_nil, or_false] at hkv
  rcases hkv with rfl | rfl | rfl | rfl | rfl | rfl | rfl | rfl | rfl | rfl | rfl
  · exact Printable.pstr _
  · exact Printable.pstr _
  · exact Printable.pstr _
  · exact Printable.pstr _
  · exact Printable.pstr _
  · exact Printable.pstr _
  · exact Printable.pstr _
  · exact Printable.pstr _
  · exact Printable.pnum _ htax
  · exact Printable.pstr _
  · refine Printable.parr _ ?_
    intro w hw
    obtain ⟨it, hit, rfl⟩ := List.mem_map.mp hw
    exact printable_itemToValue it (hitems it hit).1 (hitems it hit).2

theorem normalize_invToValue (env : Env) (I : Invoice) :
    normalizeValue env (invToValue I) = invToValue I := by
  have hfix : ∀ i a, a ∈ List.map itemToValue I.items → coerceItem env i a = a := by
    intro i a ha
    obtain ⟨it, _, rfl⟩ := List.mem_map.mp ha
    rfl
  have hitems := mapWithIndex_id_of_fix (coerceItem env) (List.map itemToValue I.items) hfix 0
  show Value.obj
    [ ("fromName", Value.str I.fromName)
    , ("fromAddress", Value.str I.fromAddress)
    , ("billToName", Value.str I.billToName)
    , ("billToAddress", Value.str I.billToAddress)
    , ("invoiceNumber", Value.str I.invoiceNumber)
    , ("issueDate", Value.str I.issueDate)
    , ("dueDate", Value.str I.dueDate)
    , ("currency", Value.str I.currency)
    , ("taxRatePct", Value.num I.taxRatePct)
    , ("notes", Value.str I.notes)
    , ("items", Value.arr (mapWithIndex (coerceItem env) 0 (List.map itemToValue I.items)))
    ] = invToValue I
  rw [hitems]
  rfl

theorem getItemIds_invToValue (I : Invoice) :
    getItemIds (invToValue I) = I.items.map fun it => Value.str it.id := by
  show (I.items.map itemToValue).map (fun e => (getField e "id").getD Value.vNull) =
    I.items.map fun it => Value.str it.id
  rw [List.map_map]
  rfl

theorem validInvoice_wInv : ValidInvoice wInv := by
  refine ⟨by simp [wInv], ?_, ?_⟩
  · show NumOk (10 : ℚ)
    exact ⟨⟨10, 0, by norm_num⟩, by rw [abs_lt]; constructor <;> norm_num⟩
  · intro it hit
    simp only [wInv, List.mem_cons, List.not_mem_nil, or_false] at hit
    rcases hit with rfl | rfl
    · refine ⟨?_, ?_⟩
      · show NumOk (3 : ℚ)
        exact ⟨⟨3, 0, by norm_num⟩, by rw [abs_lt]; constructor <;> norm_num⟩
      · show NumOk (1 / 10 : ℚ)
        exact ⟨⟨1, 1, by norm_num⟩, by rw [abs_lt]; constructor <;> norm_num⟩
    · refine ⟨?_, ?_⟩
      · show NumOk (10 : ℚ)
        exact ⟨⟨10, 0, by norm_num⟩, by rw [abs_lt]; constructor <;> norm_num⟩
      · show NumOk (90 : ℚ)
        exact ⟨⟨90, 0, by norm_num⟩, by rw [abs_lt]; constructor <;> norm_num⟩

/-- **C1**: for every valid invoice `I` (fully typed, non-empty items, and
every numeric field an exactly-representable decimal), the share-link
decode pipeline `base64UrlDecodeUtf8 ∘ base64UrlEncodeUtf8` on
`JSON.stringify(I)` followed by `JSON.parse` recovers exactly the runtime
value of `I`; normalizing that value is the identity (so the decoded
invoice equals `normalize(I)`), and every item id is preserved. -/
theorem c1_share_link_round_trip (env : Env) (I : Invoice) (h : ValidInvoice I) :
    decodeShareToken (encodeShareToken I) = some (invToValue I) ∧
    normalizeValue env (invToValue I) = invToValue I ∧
    getItemIds (invToValue I) = I.items.map fun it => Value.str it.id := by
  refine ⟨?_, normalize_invToValue env I, getItemIds_invToValue I⟩
  have h1 : base64UrlDecodeUtf8 (encodeShareToken I) = some (jsonStringify (invToValue I)) :=
    base64Url_roundtrip (jsonStringify (invToValue I))
  unfold decodeShareToken
  rw [h1]
  show jsonParse (jsonStringify (invToValue I)) = some (invToValue I)
  exact jsonParse_stringify _ (printable_invToValue I h)

/-- Closed witness for **C1** at the concrete invoice `wInv` and
environment `cxEnv`. -/
theorem c1_share_link_round_trip_witness :
    ValidInvoice wInv ∧
      (decodeShareToken (encodeShareToken wInv) = some (invToValue wInv) ∧
       normalizeValue cxEnv (invToValue wInv) = invToValue wInv ∧
       getItemIds (invToValue wInv) = wInv.items.map fun it => Value.str it.id) := by
  refine ⟨validInvoice_wInv, ?_⟩
  exact c1_share_link_round_trip cxEnv wInv validInvoice_wInv

theorem roundEven_err (x : ℚ) : |(roundEven x : ℚ) - x| ≤ 1 / 2 := by
  have hf := Int.floor_le x
  have hc := Int.lt_floor_add_one x
  simp only [roundEven]
  split
  · rename_i h
    rw [abs_le]
    constructor <;> linarith
  · rename_i h
    rw [not_lt] at h
    split
    · rename_i h2
      push_cast
      rw [abs_le]
      constructor <;> linarith
    · rename_i h2
      rw [not_lt] at h2
      split
      · rw [abs_le]
        constructor <;> linarith
      · push_cast
        rw [abs_le]
        constructor <;> linarith

theorem roundEven_eq_floor (x : ℚ) (f : ℤ) (h1 : (f : ℚ) ≤ x) (h2 : x < f + 1 / 2) :
    roundEven x = f := by
  have hf : ⌊x⌋ = f := by
    rw [Int.floor_eq_iff]
    exact ⟨h1, by linarith⟩
  simp only [roundEven, hf]
  rw [if_pos (by linarith)]

theorem roundEven_eq_ceil (x : ℚ) (f : ℤ) (h1 : (f : ℚ) + 1 / 2 < x) (h2 : x < f + 1) :
    roundEven x = f + 1 := by
  have hf : ⌊x⌋ = f := by
    rw [Int.floor_eq_iff]
    exact ⟨by linarith, by linarith⟩
  simp only [roundEven, hf]
  rw [if_neg (by rw [not_lt]; linarith), if_pos (by linarith)]

theorem roundEven_tie_even (x : ℚ) (f : ℤ) (h1 : x = (f : ℚ) + 1 / 2) (h2 : 2 ∣ f) :
    roundEven x = f := by
  have hf : ⌊x⌋ = f := by
    rw [Int.floor_eq_iff]
    exact ⟨by linarith, by linarith⟩
  simp only [roundEven, hf]
  rw [if_neg (by rw [not_lt]; linarith), if_neg (by rw [not_lt]; linarith), if_pos h2]

theorem roundEven_tie_odd (x : ℚ) (f : ℤ) (h1 : x = (f : ℚ) + 1 / 2) (h2 : ¬ 2 ∣ f) :
    roundEven x = f + 1 := by
  have hf : ⌊x⌋ = f := by
    rw [Int.floor_eq_iff]
    exact ⟨by linarith, by linarith⟩
  simp only [roundEven, hf]
  rw [if_neg (by rw [not_lt]; linarith), if_neg (by rw [not_lt]; linarith), if_neg h2]

theorem fl_zero : fl 0 = 0 := by
  simp [fl]

theorem log2_eq_of (q : ℚ) (e : ℤ) (h0 : 0 < q) (h1 : (2 : ℚ) ^ e ≤ q)
    (h2 : q < 2 ^ (e + 1)) : Int.log 2 q = e := by
  have hl := Int.zpow_log_le_self (b := 2) (by norm_num) h0
  have hu := Int.lt_zpow_succ_log_self (b := 2) (by norm_num) q
  have a1 : (2 : ℚ) ^ e < 2 ^ (Int.log 2 q + 1) := lt_of_le_of_lt h1 hu
  have a2 : (2 : ℚ) ^ (Int.log 2 q) < 2 ^ (e + 1) := lt_of_le_of_lt hl h2
  have b1 := (zpow_lt_zpow_iff_right₀ (by norm_num : (1 : ℚ) < 2)).mp a1
  have b2 := (zpow_lt_zpow_iff_right₀ (by norm_num : (1 : ℚ) < 2)).mp a2
  omega

theorem fl_eval (q : ℚ) (e m : ℤ) (hq : q ≠ 0)
    (h1 : (2 : ℚ) ^ e ≤ |q|) (h2 : |q| < 2 ^ (e + 1))
    (hm : roundEven (q * 2 ^ (52 - e)) = m) :
    fl q = (m : ℚ) * 2 ^ (e - 52) := by
  have hlog : Int.log 2 |q| = e := log2_eq_of |q| e (abs_pos.mpr hq) h1 h2
  simp only [fl, if_neg hq, hlog, hm]

theorem fl_err (q : ℚ) : |fl q - q| ≤ |q| / 2 ^ 53 := by
  by_cases hq : q = 0
  · subst hq
    simp [fl]
  · have h1 : (2 : ℚ) ^ (Int.log 2 |q|) ≤ |q| :=
      Int.zpow_log_le_self (by norm_num) (abs_pos.mpr hq)
    rw [show fl q = (roundEven (q * 2 ^ (52 - Int.log 2 |q|)) : ℚ) *
        2 ^ (Int.log 2 |q| - 52) from by simp only [fl, if_neg hq]]
    have hz : (2 : ℚ) ^ ((52 : ℤ) - Int.log 2 |q|) * 2 ^ (Int.log 2 |q| - 52) = 1 := by
      rw [← zpow_add₀ (by norm_num : (2 : ℚ) ≠ 0)]
      norm_num
    have key : (roundEven (q * 2 ^ (52 - Int.log 2 |q|)) : ℚ) * 2 ^ (Int.log 2 |q| - 52) - q
        = ((roundEven (q * 2 ^ (52 - Int.log 2 |q|)) : ℚ) - q * 2 ^ (52 - Int.log 2 |q|)) *
          2 ^ (Int.log 2 |q| - 52) := by
      rw [sub_mul, mul_assoc, hz, mul_one]
    rw [key, abs_mul]
    have hb := roundEven_err (q * 2 ^ (52 - Int.log 2 |q|))
    have hpos : (0 : ℚ) < 2 ^ (Int.log 2 |q| - 52) := zpow_pos (by norm_num) _
    rw [abs_of_pos hpos]
    calc |(roundEven (q * 2 ^ (52 - Int.log 2 |q|)) : ℚ) - q * 2 ^ (52 - Int.log 2 |q|)| *
          2 ^ (Int.log 2 |q| - 52)
        ≤ (1 / 2) * 2 ^ (Int.log 2 |q| - 52) :=
          mul_le_mul_of_nonneg_right hb (le_of_lt hpos)
      _ = 2 ^ (Int.log 2 |q| - 52) / 2 := by ring
      _ ≤ |q| / 2 ^ 52 / 2 := by
          apply div_le_div_of_nonneg_right ?_ (by norm_num)
          · rw [show (Int.log 2 |q| - 52 : ℤ) = Int.log 2 |q| + (-52) by ring,
              zpow_add₀ (by norm_num : (2 : ℚ) ≠ 0)]
            rw [div_eq_mul_inv, show ((2 : ℚ) ^ (52 : ℕ))⁻¹ = 2 ^ (-52 : ℤ) from by
              rw [← zpow_natCast]
              push_cast
              rw [← zpow_neg]]
            exact mul_le_mul_of_nonneg_right h1 (by positivity)
      _ = |q| / 2 ^ 53 := by
          rw [div_div]
          norm_num

theorem round2_fl_cent (k : ℤ) (hk : |k| ≤ 10 ^ 15) :
    round2 (fl ((k : ℚ) / 100)) = fl ((k : ℚ) / 100) := by
  have hkq : |(k : ℚ)| ≤ 10 ^ 15 := by exact_mod_cast hk
  set y : ℚ := (k : ℚ) / 100 with hy
  set x : ℚ := fl y with hx
  show fl ((jsMathRound (fl (fl (x + numberEpsilon) * 100)) : ℚ) / 100) = x
  have hb1 : |y| ≤ 10 ^ 13 := by
    rw [hy, abs_div, abs_of_pos (by norm_num : (0 : ℚ) < 100)]
    linarith
  have hy0 : (0 : ℚ) ≤ |y| := abs_nonneg y
  have hy1 := le_abs_self y
  have hy2 := neg_abs_le y
  have e1 : |x - y| ≤ |y| / 2 ^ 53 := fl_err y
  obtain ⟨l1, r1⟩ := abs_le.mp e1
  have hxe : |x + numberEpsilon| ≤ 10 ^ 13 + 1 := by
    rw [abs_le]
    simp only [numberEpsilon]
    constructor <;> linarith
  have e2 : |fl (x + numberEpsilon) - (x + numberEpsilon)| ≤ |x + numberEpsilon| / 2 ^ 53 :=
    fl_err _
  set t1 : ℚ := fl (x + numberEpsilon) with ht1
  have e2' : |t1 - (x + numberEpsilon)| ≤ (10 ^ 13 + 1) / 2 ^ 53 := by
    have h2 : |x + numberEpsilon| / 2 ^ 53 ≤ (10 ^ 13 + 1) / 2 ^ 53 := by linarith
    linarith
  obtain ⟨l2, r2⟩ := abs_le.mp e2'
  have ht1b : |t1 * 100| ≤ 10 ^ 15 + 300 := by
    rw [abs_mul, abs_of_pos (by norm_num : (0 : ℚ) < 100)]
    have hu : |t1| ≤ 10 ^ 13 + 3 := by
      rw [abs_le]
      simp only [numberEpsilon] at l2 r2
      constructor <;> linarith
    linarith
  have e3 : |fl (t1 * 100) - t1 * 100| ≤ |t1 * 100| / 2 ^ 53 := fl_err _
  set t2 : ℚ := fl (t1 * 100) with ht2
  have e3' : |t2 - t1 * 100| ≤ (10 ^ 15 + 300) / 2 ^ 53 := by
    have h3 : |t1 * 100| / 2 ^ 53 ≤ (10 ^ 15 + 300) / 2 ^ 53 := by linarith
    linarith
  obtain ⟨l3, r3⟩ := abs_le.mp e3'
  have hyk : y * 100 = (k : ℚ) := by
    rw [hy]
    field_simp
  have hfloor : jsMathRound t2 = k := by
    show ⌊t2 + 1 / 2⌋ = k
    rw [Int.floor_eq_iff]
    simp only [numberEpsilon] at l2 r2
    constructor
    · linarith
    · linarith
  rw [hfloor, ← hy, ← hx]

theorem fl_neg_half_cent :
    fl (-(1 / 200) : ℚ) = -5764607523034235 / 2 ^ 60 := by
  have habs : |(-(1 / 200) : ℚ)| = 1 / 200 := by
    rw [abs_neg]
    exact abs_of_pos (by norm_num)
  rw [fl_eval (-(1 / 200) : ℚ) (-8) (-5764607523034235) (by norm_num)
    (by rw [habs]; norm_num) (by rw [habs]; norm_num)
    (by rw [roundEven_eq_floor _ (-5764607523034235) (by norm_num) (by norm_num)])]
  norm_num

theorem fl_neg_half_cent_eps :
    fl (-5764607523033979 / 2 ^ 60 : ℚ) = -5764607523033979 / 2 ^ 60 := by
  have habs : |(-5764607523033979 / 2 ^ 60 : ℚ)| = 5764607523033979 / 2 ^ 60 := by
    rw [abs_of_neg (by norm_num : (-5764607523033979 / 2 ^ 60 : ℚ) < 0)]
    norm_num
  rw [fl_eval _ (-8) (-5764607523033979) (by norm_num)
    (by rw [habs]; norm_num) (by rw [habs]; norm_num)
    (by rw [roundEven_eq_floor _ (-5764607523033979) (by norm_num) (by norm_num)])]
  norm_num

theorem fl_neg_half_cent_scaled :
    fl (-576460752303397900 / 2 ^ 60 : ℚ) = -9007199254740592 / 2 ^ 54 := by
  have habs : |(-576460752303397900 / 2 ^ 60 : ℚ)| = 576460752303397900 / 2 ^ 60 := by
    rw [abs_of_neg (by norm_num : (-576460752303397900 / 2 ^ 60 : ℚ) < 0)]
    norm_num
  rw [fl_eval _ (-2) (-9007199254740592) (by norm_num)
    (by rw [habs]; norm_num) (by rw [habs]; norm_num)
    (by rw [roundEven_eq_ceil _ (-9007199254740593) (by norm_num) (by norm_num)]; decide)]
  norm_num

theorem fl_three : fl (3 : ℚ) = 3 := by
  have habs : |(3 : ℚ)| = 3 := abs_of_pos (by norm_num)
  rw [fl_eval (3 : ℚ) 1 6755399441055744 (by norm_num)
    (by rw [habs]; norm_num) (by rw [habs]; norm_num)
    (by rw [roundEven_eq_floor _ 6755399441055744 (by norm_num) (by norm_num)])]
  norm_num

theorem fl_tenth : fl (1 / 10 : ℚ) = 7205759403792794 / 2 ^ 56 := by
  have habs : |(1 / 10 : ℚ)| = 1 / 10 := abs_of_pos (by norm_num)
  rw [fl_eval (1 / 10 : ℚ) (-4) 7205759403792794 (by norm_num)
    (by rw [habs]; norm_num) (by rw [habs]; norm_num)
    (by rw [roundEven_eq_ceil _ 7205759403792793 (by norm_num) (by norm_num)]; decide)]
  norm_num

theorem fl_three_tenths_prod :
    fl (21617278211378382 / 2 ^ 56 : ℚ) = 5404319552844596 / 2 ^ 54 := by
  have habs : |(21617278211378382 / 2 ^ 56 : ℚ)| = 21617278211378382 / 2 ^ 56 :=
    abs_of_pos (by norm_num)
  rw [fl_eval _ (-2) 5404319552844596 (by norm_num)
    (by rw [habs]; norm_num) (by rw [habs]; norm_num)
    (by rw [roundEven_tie_odd _ 5404319552844595 (by norm_num) (by decide)]; decide)]
  norm_num

theorem fl_three_tenths_eps :
    fl (5404319552844600 / 2 ^ 54 : ℚ) = 5404319552844600 / 2 ^ 54 := by
  have habs : |(5404319552844600 / 2 ^ 54 : ℚ)| = 5404319552844600 / 2 ^ 54 :=
    abs_of_pos (by norm_num)
  rw [fl_eval _ (-2) 5404319552844600 (by norm_num)
    (by rw [habs]; norm_num) (by rw [habs]; norm_num)
    (by rw [roundEven_eq_floor _ 5404319552844600 (by norm_num) (by norm_num)])]
  norm_num

theorem fl_thirty_scaled :
    fl (540431955284460000 / 2 ^ 54 : ℚ) = 8444249301319688 / 2 ^ 48 := by
  have habs : |(540431955284460000 / 2 ^ 54 : ℚ)| = 540431955284460000 / 2 ^ 54 :=
    abs_of_pos (by norm_num)
  rw [fl_eval _ 4 8444249301319688 (by norm_num)
    (by rw [habs]; norm_num) (by rw [habs]; norm_num)
    (by rw [roundEven_tie_odd _ 8444249301319687 (by norm_num) (by decide)]; decide)]
  norm_num

theorem round2_spec_example :
    round2 (fl (fl 3 * fl (1 / 10))) = fl (3 / 10) := by
  rw [fl_three, fl_tenth,
    show (3 : ℚ) * (7205759403792794 / 2 ^ 56) = 21617278211378382 / 2 ^ 56 by norm_num,
    fl_three_tenths_prod]
  show fl ((jsMathRound (fl (fl ((5404319552844596 / 2 ^ 54 : ℚ) + numberEpsilon) * 100)) : ℚ)
    / 100) = fl (3 / 10)
  rw [show (5404319552844596 / 2 ^ 54 : ℚ) + numberEpsilon = 5404319552844600 / 2 ^ 54 by
      simp only [numberEpsilon]
      norm_num,
    fl_three_tenths_eps,
    show (5404319552844600 / 2 ^ 54 : ℚ) * 100 = 540431955284460000 / 2 ^ 54 by norm_num,
    fl_thirty_scaled,
    show jsMathRound (8444249301319688 / 2 ^ 48 : ℚ) = 30 by
      show ⌊(8444249301319688 / 2 ^ 48 : ℚ) + 1 / 2⌋ = 30
      rw [Int.floor_eq_iff]
      constructor <;> norm_num,
    show ((30 : ℤ) : ℚ) / 100 = 3 / 10 by norm_num]

/-- **C5** (amended): `round2` evaluates `Math.round((x + Number.EPSILON)·100)/100`
in binary64.  On every binary64 cent value — `fl (k/100)` for an integer
`k` with `|k| ≤ 10¹⁵` — it is the identity, and it repairs the spec's
example exactly: `round2 (3 * 0.1)`, with the factors and the product
evaluated in binary64, is the binary64 value `0.3`.  It is not exact
nearest-cent rounding of its argument (see the counterexample). -/
theorem c5_round2_binary64 (k : ℤ) (hk : |k| ≤ 10 ^ 15) :
    round2 (fl ((k : ℚ) / 100)) = fl ((k : ℚ) / 100) ∧
    round2 (fl (fl 3 * fl (1 / 10))) = fl (3 / 10) :=
  ⟨round2_fl_cent k hk, round2_spec_example⟩

/-- Closed witness for **C5** at `k = 30`. -/
theorem c5_round2_binary64_witness :
    |(30 : ℤ)| ≤ 10 ^ 15 ∧
      (round2 (fl (((30 : ℤ) : ℚ) / 100)) = fl (((30 : ℤ) : ℚ) / 100) ∧
       round2 (fl (fl 3 * fl (1 / 10))) = fl (3 / 10)) :=
  ⟨by decide, c5_round2_binary64 30 (by decide)⟩

/-- **C5** counterexample: on the binary64 value nearest `-0.005`
(which is `-0.005000000000000000104…`), the code returns `0` although
`-0.01` is strictly nearer — `Math.round` sends the epsilon-shifted scaled
value `-0.49999…` up to `0` — refuting "rounded to the nearest multiple of
0.01, ties away from zero" for the program's binary64 evaluation. -/
theorem c5_round2_float_counterexample :
    round2 (fl (-(1 / 200))) = 0 ∧
    ¬ IsRound2AwayOf (fl (-(1 / 200))) (round2 (fl (-(1 / 200)))) := by
  have hmain : round2 (fl (-(1 / 200))) = 0 := by
    rw [fl_neg_half_cent]
    show fl ((jsMathRound (fl (fl ((-5764607523034235 / 2 ^ 60 : ℚ) + numberEpsilon) * 100))
      : ℚ) / 100) = 0
    rw [show (-5764607523034235 / 2 ^ 60 : ℚ) + numberEpsilon = -5764607523033979 / 2 ^ 60 by
        simp only [numberEpsilon]
        norm_num,
      fl_neg_half_cent_eps,
      show (-5764607523033979 / 2 ^ 60 : ℚ) * 100 = -576460752303397900 / 2 ^ 60 by norm_num,
      fl_neg_half_cent_scaled,
      show jsMathRound (-9007199254740592 / 2 ^ 54 : ℚ) = 0 by
        show ⌊(-9007199254740592 / 2 ^ 54 : ℚ) + 1 / 2⌋ = 0
        rw [Int.floor_eq_iff]
        constructor <;> norm_num,
      show ((0 : ℤ) : ℚ) / 100 = 0 by norm_num,
      fl_zero]
  refine ⟨hmain, ?_⟩
  rw [hmain, fl_neg_half_cent]
  rintro ⟨-, h2, -, -⟩
  rw [show (-5764607523034235 / 2 ^ 60 : ℚ) - 0 = -(5764607523034235 / 2 ^ 60) by ring,
    abs_neg, abs_of_pos (by norm_num)] at h2
  norm_num at h2
